import Mathlib

set_option maxHeartbeats 1000000

/-!
# Verification of the grobotstxt robots.txt parser/matcher

Byte-level shallow embedding of the Go library `jimsmart/grobotstxt`
(files `robots_cc.go`, `robots_h.go`).  Go strings are modelled as lists
of bytes (`List Nat`, values `< 256`); Go's `-1` index sentinels are
modelled with `Int` or `Option Nat` as noted at each definition.
-/

namespace Grobotstxt

/-! ## Pattern matcher (`RobotsMatchStrategy_Matches`, robots_cc.go:66-108)

The Go loop keeps a sorted array `pos` of candidate path offsets; we model
the loop state by recursion over the remaining pattern.  Byte constants:
`36 = '$'`, `42 = '*'`.  In the Go code `pos` is never empty when
`pos[numpos-1]` or `pos[0]` is read (it starts as `[0]`, the `'*'` branch
produces a non-empty list, and the literal branch returns early on empty),
so the `getLastD 0` / `headD 0` defaults are never exercised from the
entry point `RobotsMatchStrategy_Matches`. -/

def matchesFrom (path : List Nat) : List Nat → List Nat → Bool
  | [], _ => true
  | c :: rest, pos =>
    if c = 36 ∧ rest = [] then
      -- Go: `return pos[numpos-1] == pathlen`
      decide (pos.getLastD 0 = path.length)
    else if c = 42 then
      -- Go: `numpos = pathlen - pos[0] + 1; pos[j] = pos[j-1] + 1`
      matchesFrom path rest (List.range' (pos.headD 0) (path.length - pos.headD 0 + 1))
    else
      -- Go: keep `pos[j]` with `pos[j] < pathlen && path[pos[j]] == pattern[i]`,
      -- incremented; return false if none remain.  (Includes '$' mid-pattern.)
      if pos.filterMap (fun j => if path[j]? = some c then some (j + 1) else none) = []
      then false
      else matchesFrom path rest
        (pos.filterMap fun j => if path[j]? = some c then some (j + 1) else none)

/-- robots_cc.go:66: `RobotsMatchStrategy_Matches(path, pattern)`. -/
def RobotsMatchStrategy_Matches (path pattern : List Nat) : Bool :=
  matchesFrom path pattern [0]

/-- Declarative pattern semantics, from the spec's words (§4.1): the pattern
is anchored at the start of `path`; `'*'` matches any (possibly empty) run of
bytes; `'$'` as the final pattern byte asserts end-of-path; `'$'` anywhere
else is a literal byte; any other byte matches itself exactly.  At pattern
end the match succeeds with any remainder of `path` left over (i.e. the
pattern matches some prefix of `path`). -/
def matchesSpec : List Nat → List Nat → Bool
  | [], _ => true
  | c :: rest, path =>
    if c = 36 ∧ rest = [] then decide (path = [])
    else if c = 42 then
      (List.range (path.length + 1)).any fun k => matchesSpec rest (path.drop k)
    else
      match path with
      | [] => false
      | x :: xs => decide (x = c) && matchesSpec rest xs

/-- In a strictly sorted list every member is bounded by the last element. -/
theorem le_getLast_of_sorted :
    ∀ {l : List Nat}, l.Pairwise (· < ·) → ∀ {a m : Nat}, a ∈ l → l.getLast? = some m → a ≤ m := by
  intro l
  induction l with
  | nil => intro _ a m ha _; cases ha
  | cons b t ih =>
    intro hs a m ha hm
    rcases List.pairwise_cons.mp hs with ⟨hb, ht⟩
    cases t with
    | nil =>
      rcases List.mem_singleton.mp ha with rfl
      simp at hm
      omega
    | cons c t2 =>
      rw [List.getLast?_cons_cons] at hm
      rcases List.mem_cons.mp ha with rfl | ha
      · have hmm : m ∈ c :: t2 := List.mem_of_mem_getLast? hm
        exact le_of_lt (hb m hmm)
      · exact ih ht ha hm

/-- In a strictly sorted list the head is a lower bound for every member. -/
theorem headD_le_of_sorted {l : List Nat} (hs : l.Pairwise (· < ·)) {a : Nat} (ha : a ∈ l) :
    l.headD 0 ≤ a := by
  cases l with
  | nil => cases ha
  | cons b t =>
    rcases List.pairwise_cons.mp hs with ⟨hb, -⟩
    rcases List.mem_cons.mp ha with rfl | ha
    · simp
    · simpa using le_of_lt (hb a ha)

/-! Unfolding equations for the two matchers, one per pattern shape. -/

theorem matchesFrom_nil_pat (path pos : List Nat) : matchesFrom path [] pos = true := by
  simp [matchesFrom]

theorem matchesFrom_dollar (path pos : List Nat) :
    matchesFrom path [36] pos = decide (pos.getLastD 0 = path.length) := by
  simp [matchesFrom]

theorem matchesFrom_star (path rest pos : List Nat) :
    matchesFrom path (42 :: rest) pos
      = matchesFrom path rest (List.range' (pos.headD 0) (path.length - pos.headD 0 + 1)) := by
  simp [matchesFrom]

theorem matchesFrom_literal (path pos : List Nat) {c : Nat} {rest : List Nat}
    (h1 : ¬(c = 36 ∧ rest = [])) (h2 : c ≠ 42) :
    matchesFrom path (c :: rest) pos
      = (if pos.filterMap (fun j => if path[j]? = some c then some (j + 1) else none) = []
          then false
          else matchesFrom path rest
            (pos.filterMap fun j => if path[j]? = some c then some (j + 1) else none)) := by
  simp only [matchesFrom]
  rw [if_neg h1, if_neg h2]

theorem matchesSpec_dollar (q : List Nat) : matchesSpec [36] q = decide (q = []) := by
  simp [matchesSpec]

theorem matchesSpec_star (rest q : List Nat) :
    matchesSpec (42 :: rest) q
      = (List.range (q.length + 1)).any fun k => matchesSpec rest (q.drop k) := by
  simp [matchesSpec]

theorem matchesSpec_literal {c : Nat} {rest : List Nat} (q : List Nat)
    (h1 : ¬(c = 36 ∧ rest = [])) (h2 : c ≠ 42) :
    matchesSpec (c :: rest) q
      = (match q with
          | [] => false
          | x :: xs => decide (x = c) && matchesSpec rest xs) := by
  simp only [matchesSpec]
  rw [if_neg h1, if_neg h2]

/-- Unfolding of `matchesSpec` on a literal pattern byte against a dropped path:
the head of the remaining path must be exactly `c`. -/
theorem matchesSpec_literal_drop {c : Nat} {rest path : List Nat} (j : Nat)
    (h1 : ¬(c = 36 ∧ rest = [])) (h2 : c ≠ 42) :
    matchesSpec (c :: rest) (path.drop j)
      = (decide (path[j]? = some c) && matchesSpec rest (path.drop (j + 1))) := by
  rw [matchesSpec_literal _ h1 h2]
  by_cases hj : j < path.length
  · rw [List.drop_eq_getElem_cons hj, List.getElem?_eq_getElem hj]
    simp
  · have hple : path.length ≤ j := le_of_not_lt hj
    rw [List.drop_eq_nil_of_le hple,
      List.drop_eq_nil_of_le (le_trans hple (Nat.le_succ_of_le le_rfl)),
      List.getElem?_eq_none hple]
    simp

/-- Loop invariant for the Go candidate-set matcher: on a non-empty, strictly
sorted list of candidate offsets, all within the path, the loop accepts iff
some candidate offset admits a declarative match of the remaining pattern. -/
theorem matchesFrom_eq_any (path : List Nat) :
    ∀ pattern pos : List Nat, pos ≠ [] → pos.Pairwise (· < ·) →
      (∀ j ∈ pos, j ≤ path.length) →
      matchesFrom path pattern pos = pos.any fun j => matchesSpec pattern (path.drop j) := by
  intro pattern
  induction pattern with
  | nil =>
    intro pos hne _ _
    obtain ⟨a, ha⟩ := List.exists_mem_of_ne_nil pos hne
    rw [Bool.eq_iff_iff, matchesFrom_nil_pat]
    simp only [List.any_eq_true, true_iff]
    exact ⟨a, ha, rfl⟩
  | cons c rest ih =>
    intro pos hne hsort hle
    by_cases hdollar : c = 36 ∧ rest = []
    · obtain ⟨rfl, rfl⟩ := hdollar
      obtain ⟨m, hm⟩ := Option.isSome_iff_exists.mp ((List.getLast?_isSome).mpr hne)
      have hmmem : m ∈ pos := List.mem_of_mem_getLast? hm
      rw [Bool.eq_iff_iff, matchesFrom_dollar]
      simp only [matchesSpec_dollar, List.any_eq_true, decide_eq_true_eq,
        List.getLastD_eq_getLast?, hm, Option.getD_some, List.drop_eq_nil_iff]
      constructor
      · intro hml
        exact ⟨m, hmmem, by omega⟩
      · rintro ⟨j, hj, hjlen⟩
        have h1 : j = path.length := le_antisymm (hle j hj) hjlen
        have h2 : j ≤ m := le_getLast_of_sorted hsort hj hm
        have h3 : m ≤ path.length := hle m hmmem
        omega
    · by_cases hstar : c = 42
      · subst hstar
        have hhead : pos.headD 0 ∈ pos := by
          cases pos with
          | nil => exact absurd rfl hne
          | cons a t => simp
        have hh0le : pos.headD 0 ≤ path.length := hle _ hhead
        have hnew_ne : List.range' (pos.headD 0) (path.length - pos.headD 0 + 1) ≠ [] := by
          intro h
          have := congrArg List.length h
          simp at this
        have hnew_le : ∀ j ∈ List.range' (pos.headD 0) (path.length - pos.headD 0 + 1),
            j ≤ path.length := by
          intro j hj
          rw [List.mem_range'_1] at hj
          omega
        have hrec := ih (List.range' (pos.headD 0) (path.length - pos.headD 0 + 1)) hnew_ne
          (List.pairwise_lt_range' _ _) hnew_le
        rw [Bool.eq_iff_iff, matchesFrom_star, hrec]
        simp only [List.any_eq_true, List.mem_range'_1, matchesSpec_star, List.mem_range,
          List.drop_drop, List.length_drop]
        constructor
        · rintro ⟨t, ⟨hth, htl⟩, hts⟩
          refine ⟨pos.headD 0, hhead, t - pos.headD 0, by omega, ?_⟩
          have heq : pos.headD 0 + (t - pos.headD 0) = t := by omega
          rw [heq]
          exact hts
        · rintro ⟨j, hj, k, hk, hks⟩
          have hjle : j ≤ path.length := hle j hj
          have hjh0 : pos.headD 0 ≤ j := headD_le_of_sorted hsort hj
          exact ⟨j + k, ⟨by omega, by omega⟩, hks⟩
      · -- literal byte (including '$' not at the end of the pattern)
        by_cases hp2 : pos.filterMap (fun j => if path[j]? = some c then some (j + 1) else none) = []
        · rw [Bool.eq_iff_iff]
          rw [matchesFrom_literal path pos hdollar hstar, if_pos hp2]
          simp only [Bool.false_eq_true, false_iff, List.any_eq_true, not_exists, not_and]
          intro j hj hjs
          rw [matchesSpec_literal_drop j hdollar hstar] at hjs
          rw [List.filterMap_eq_nil_iff] at hp2
          have hnone := hp2 j hj
          by_cases hc : path[j]? = some c
          · rw [if_pos hc] at hnone
            cases hnone
          · rw [decide_eq_false hc] at hjs
            simp at hjs
        · have hsort2 : (pos.filterMap fun j =>
              if path[j]? = some c then some (j + 1) else none).Pairwise (· < ·) := by
            refine List.Pairwise.filterMap _ ?_ hsort
            intro a a' haa b hb b' hb'
            by_cases h1 : path[a]? = some c <;> by_cases h2 : path[a']? = some c <;>
              simp [h1, h2, Option.mem_def] at hb hb' <;> omega
          have hle2 : ∀ t ∈ pos.filterMap fun j =>
              if path[j]? = some c then some (j + 1) else none, t ≤ path.length := by
            intro t ht
            rw [List.mem_filterMap] at ht
            rcases ht with ⟨j, hj, hjt⟩
            by_cases h1 : path[j]? = some c
            · rw [if_pos h1] at hjt
              injection hjt with hjt
              have hjlt : j < path.length := by
                rcases List.getElem?_eq_some_iff.mp h1 with ⟨h, -⟩
                exact h
              omega
            · rw [if_neg h1] at hjt
              cases hjt
          have hrec := ih _ hp2 hsort2 hle2
          rw [Bool.eq_iff_iff]
          rw [matchesFrom_literal path pos hdollar hstar, if_neg hp2, hrec]
          simp only [List.any_eq_true, List.mem_filterMap]
          constructor
          · rintro ⟨t, ⟨j, hj, hjt⟩, hts⟩
            by_cases h1 : path[j]? = some c
            · rw [if_pos h1] at hjt
              cases hjt
              refine ⟨j, hj, ?_⟩
              rw [matchesSpec_literal_drop j hdollar hstar]
              simp [h1, hts]
            · rw [if_neg h1] at hjt
              cases hjt
          · rintro ⟨j, hj, hjs⟩
            rw [matchesSpec_literal_drop j hdollar hstar] at hjs
            rcases Bool.and_eq_true_iff.mp hjs with ⟨hc, hrest⟩
            have hc2 : path[j]? = some c := of_decide_eq_true hc
            exact ⟨j + 1, ⟨j, hj, by rw [if_pos hc2]⟩, hrest⟩

/-- C2: for every pair of byte strings (path, pattern),
`RobotsMatchStrategy_Matches path pattern` returns true if and only if the
pattern, anchored at the start of the path, matches some prefix of the path,
where `*` matches any (possibly empty) run of bytes, a `$` that is the final
byte of the pattern asserts that the match reaches the end of the path, a `$`
anywhere else is a literal byte, and every other byte matches itself exactly
(byte-level, case-sensitive).  The function is a total Lean function, hence
pure and never erring. -/
theorem c2_matches_iff_declarative (path pattern : List Nat) :
    RobotsMatchStrategy_Matches path pattern = matchesSpec pattern path := by
  rw [RobotsMatchStrategy_Matches,
    matchesFrom_eq_any path pattern [0] (by simp) (by simp) (by simp)]
  simp

-- Sanity checks on concrete inputs ("/a" vs "/*$", "/x/y" vs "/x", "$" cases).
example : RobotsMatchStrategy_Matches [47, 97] [47, 42, 36] = true := by decide
example : matchesSpec [47, 42, 36] [47, 97] = true := by decide
example : RobotsMatchStrategy_Matches [47, 120, 47, 121] [47, 120] = true := by decide
example : RobotsMatchStrategy_Matches [47, 120] [47, 120, 36] = true := by decide
example : RobotsMatchStrategy_Matches [47, 120, 121] [47, 120, 36] = false := by decide
example : RobotsMatchStrategy_Matches [47, 120] [47, 36, 120] = false := by decide
example : matchesSpec [47, 36, 120] [47, 120] = false := by decide
example : RobotsMatchStrategy_Matches [47, 36, 120] [47, 36, 120] = true := by decide
example : RobotsMatchStrategy_Matches [] [36] = true := by decide
example : RobotsMatchStrategy_Matches [97] [42, 42, 36] = true := by decide

/-! ## Longest-match strategy (robots_cc.go:549-573)

`MatchAllow`/`MatchDisallow` return the pattern length on a match and `-1`
otherwise; priorities are modelled as `Int` (Go `int`). -/

def MatchAllow (path pattern : List Nat) : Int :=
  if RobotsMatchStrategy_Matches path pattern then (pattern.length : Int) else -1

def MatchDisallow (path pattern : List Nat) : Int :=
  if RobotsMatchStrategy_Matches path pattern then (pattern.length : Int) else -1

/-! ## Matcher state (robots_h.go:67-163, robots_cc.go:602-801) -/

/-- robots_h.go:107: a match score, `(priority, line)`; initial value `(-1, 0)`. -/
structure Match where
  priority : Int
  line : Nat
deriving DecidableEq

/-- robots_h.go:147: global (`*`) and specific scores for one directive class. -/
structure MatchHierarchy where
  global : Match
  specific : Match
deriving DecidableEq

/-- robots_h.go:67: the matcher state consumed by the parser events. -/
structure RobotsMatcher where
  allowMatch : MatchHierarchy
  disallowMatch : MatchHierarchy
  seenGlobalAgent : Bool
  seenSpecificAgent : Bool
  everSeenSpecificAgent : Bool
  seenSeparator : Bool
  path : List Nat
  userAgents : List (List Nat)
deriving DecidableEq

/-- robots_h.go:89: `seenAnyAgent`. -/
def RobotsMatcher.seenAnyAgent (m : RobotsMatcher) : Bool :=
  m.seenGlobalAgent || m.seenSpecificAgent

/-- robots_cc.go:636: `RobotsMatcher.disallow`, the final decision. -/
def RobotsMatcher.disallow (m : RobotsMatcher) : Bool :=
  if m.allowMatch.specific.priority > 0 ∨ m.disallowMatch.specific.priority > 0 then
    decide (m.disallowMatch.specific.priority > m.allowMatch.specific.priority)
  else if m.everSeenSpecificAgent then
    false
  else if m.disallowMatch.global.priority > 0 ∨ m.allowMatch.global.priority > 0 then
    decide (m.disallowMatch.global.priority > m.allowMatch.global.priority)
  else
    false

/-- The decision procedure exactly as the spec (§4.6, "Decision") words it:
specific scores first, then `ever_seen_specific_agent`, then global scores,
else allowed. -/
def disallowedSpec (m : RobotsMatcher) : Bool :=
  if m.disallowMatch.specific.priority > 0 ∨ m.allowMatch.specific.priority > 0 then
    decide (m.disallowMatch.specific.priority > m.allowMatch.specific.priority)
  else if m.everSeenSpecificAgent then
    false
  else if m.disallowMatch.global.priority > 0 ∨ m.allowMatch.global.priority > 0 then
    decide (m.disallowMatch.global.priority > m.allowMatch.global.priority)
  else
    false

/-- Go `strings.LastIndexByte(l, b)`: index of the last occurrence of `b`,
with `none` standing for Go's `-1`. -/
def lastIndexOf (b : Nat) : List Nat → Option Nat
  | [] => none
  | c :: rest =>
    match lastIndexOf b rest with
    | some j => some (j + 1)
    | none => if c = b then some 0 else none

/-- The byte string "/index.htm" (robots_cc.go:767). -/
def indexHtmBytes : List Nat := [47, 105, 110, 100, 101, 120, 46, 104, 116, 109]

/-- robots_cc.go:742: `RobotsMatcher.HandleAllow`.  The Go
`panic("Not seen global agent")` branch is dead code for every state: it
would require `seenAnyAgent ∧ ¬seenSpecificAgent ∧ ¬seenGlobalAgent`, which
contradicts `seenAnyAgent = seenGlobalAgent || seenSpecificAgent`. -/
def RobotsMatcher.HandleAllow (m : RobotsMatcher) (lineNum : Nat) (value : List Nat) :
    RobotsMatcher :=
  if ¬ m.seenAnyAgent then m
  else
    if 0 ≤ MatchAllow m.path value then
      if m.seenSpecificAgent then
        if m.allowMatch.specific.priority < MatchAllow m.path value then
          { m with seenSeparator := true,
                   allowMatch := { m.allowMatch with
                                   specific := ⟨MatchAllow m.path value, lineNum⟩ } }
        else { m with seenSeparator := true }
      else
        if m.allowMatch.global.priority < MatchAllow m.path value then
          { m with seenSeparator := true,
                   allowMatch := { m.allowMatch with
                                   global := ⟨MatchAllow m.path value, lineNum⟩ } }
        else { m with seenSeparator := true }
    else
      -- Google-specific optimization: 'index.htm(l)' is normalized to '/'.
      match lastIndexOf 47 value with
      | some slashPos =>
        if hp : indexHtmBytes.isPrefixOf (value.drop slashPos) then
          HandleAllow { m with seenSeparator := true } lineNum
            (value.take (slashPos + 1) ++ [36])
        else { m with seenSeparator := true }
      | none => { m with seenSeparator := true }
termination_by value.length
decreasing_by
  have hlen := List.IsPrefix.length_le (List.isPrefixOf_iff_prefix.mp hp)
  simp only [indexHtmBytes, List.length_cons, List.length_nil, List.length_drop] at hlen
  simp only [List.length_append, List.length_take, List.length_cons, List.length_nil]
  omega

/-- robots_cc.go:774: `RobotsMatcher.HandleDisallow` (no rewrite branch). -/
def RobotsMatcher.HandleDisallow (m : RobotsMatcher) (lineNum : Nat) (value : List Nat) :
    RobotsMatcher :=
  if ¬ m.seenAnyAgent then m
  else
    if 0 ≤ MatchDisallow m.path value then
      if m.seenSpecificAgent then
        if m.disallowMatch.specific.priority < MatchDisallow m.path value then
          { m with seenSeparator := true,
                   disallowMatch := { m.disallowMatch with
                                      specific := ⟨MatchDisallow m.path value, lineNum⟩ } }
        else { m with seenSeparator := true }
      else
        if m.disallowMatch.global.priority < MatchDisallow m.path value then
          { m with seenSeparator := true,
                   disallowMatch := { m.disallowMatch with
                                      global := ⟨MatchDisallow m.path value, lineNum⟩ } }
        else { m with seenSeparator := true }
    else { m with seenSeparator := true }

/-- C1: after a parse run the decision `disallow()` is a pure read of the four
scores and `everSeenSpecificAgent`, computed exactly as the spec describes:
specific scores first (when either has priority `> 0`, result is
`disallow.specific.priority > allow.specific.priority`), then
`ever_seen_specific_agent` forces allow, then global scores, else allow —
and equal priorities (ties) always resolve to allow (second conjunct). -/
theorem c1_disallow_decision (m : RobotsMatcher) :
    m.disallow = disallowedSpec m
      ∧ (m.disallowMatch.specific.priority = m.allowMatch.specific.priority →
          m.disallowMatch.global.priority = m.allowMatch.global.priority →
          m.disallow = false) := by
  constructor
  · unfold RobotsMatcher.disallow disallowedSpec
    by_cases h1 : m.allowMatch.specific.priority > 0 ∨ m.disallowMatch.specific.priority > 0
    · rw [if_pos h1, if_pos (Or.symm h1)]
    · rw [if_neg h1, if_neg (show ¬(m.disallowMatch.specific.priority > 0 ∨
        m.allowMatch.specific.priority > 0) from fun h => h1 (Or.symm h))]
  · intro hs hg
    unfold RobotsMatcher.disallow
    by_cases h1 : m.allowMatch.specific.priority > 0 ∨ m.disallowMatch.specific.priority > 0
    · rw [if_pos h1, hs]
      simp
    · rw [if_neg h1]
      by_cases h2 : m.everSeenSpecificAgent = true
      · rw [if_pos h2]
      · rw [if_neg h2]
        by_cases h3 : m.disallowMatch.global.priority > 0 ∨ m.allowMatch.global.priority > 0
        · rw [if_pos h3, hg]
          simp
        · rw [if_neg h3]

/-- Closed instance of the tie-breaking part of C1: a matcher whose
allow/disallow priorities are equal (2 on the global side) decides "allow". -/
theorem c1_disallow_decision_witness :
    RobotsMatcher.disallow
      ⟨⟨⟨2, 1⟩, ⟨-1, 0⟩⟩, ⟨⟨2, 2⟩, ⟨-1, 0⟩⟩, true, false, false, true, [47], []⟩ = false :=
  (c1_disallow_decision _).2 (by decide) (by decide)

/-! ## C9: monotone evolution of the four stored scores -/

/-- One parser event moves each stored score monotonically: the score is
either untouched, or replaced by one of strictly larger priority. -/
def monotoneScores (m m2 : RobotsMatcher) : Prop :=
  (m2.allowMatch.specific = m.allowMatch.specific
      ∨ m.allowMatch.specific.priority < m2.allowMatch.specific.priority)
    ∧ (m2.allowMatch.global = m.allowMatch.global
      ∨ m.allowMatch.global.priority < m2.allowMatch.global.priority)
    ∧ (m2.disallowMatch.specific = m.disallowMatch.specific
      ∨ m.disallowMatch.specific.priority < m2.disallowMatch.specific.priority)
    ∧ (m2.disallowMatch.global = m.disallowMatch.global
      ∨ m.disallowMatch.global.priority < m2.disallowMatch.global.priority)

theorem monotoneScores_refl (m : RobotsMatcher) : monotoneScores m m :=
  ⟨Or.inl rfl, Or.inl rfl, Or.inl rfl, Or.inl rfl⟩

theorem monotoneScores_trans {a b c : RobotsMatcher} (h1 : monotoneScores a b)
    (h2 : monotoneScores b c) : monotoneScores a c := by
  obtain ⟨h11, h12, h13, h14⟩ := h1
  obtain ⟨h21, h22, h23, h24⟩ := h2
  refine ⟨?_, ?_, ?_, ?_⟩ <;>
    [skip; skip; skip; skip] <;>
    first
    | (rcases h11 with he | hl <;> rcases h21 with he2 | hl2 <;>
        first
          | exact Or.inl (he2.trans he)
          | (rw [he2]; exact Or.inr hl)
          | (rw [he] at hl2; exact Or.inr hl2)
          | exact Or.inr (lt_trans hl hl2))
    | (rcases h12 with he | hl <;> rcases h22 with he2 | hl2 <;>
        first
          | exact Or.inl (he2.trans he)
          | (rw [he2]; exact Or.inr hl)
          | (rw [he] at hl2; exact Or.inr hl2)
          | exact Or.inr (lt_trans hl hl2))
    | (rcases h13 with he | hl <;> rcases h23 with he2 | hl2 <;>
        first
          | exact Or.inl (he2.trans he)
          | (rw [he2]; exact Or.inr hl)
          | (rw [he] at hl2; exact Or.inr hl2)
          | exact Or.inr (lt_trans hl hl2))
    | (rcases h14 with he | hl <;> rcases h24 with he2 | hl2 <;>
        first
          | exact Or.inl (he2.trans he)
          | (rw [he2]; exact Or.inr hl)
          | (rw [he] at hl2; exact Or.inr hl2)
          | exact Or.inr (lt_trans hl hl2))

theorem monotone_handleAllow :
    ∀ (n : Nat) (value : List Nat), value.length ≤ n →
      ∀ (m : RobotsMatcher) (lineNum : Nat),
        monotoneScores m (m.HandleAllow lineNum value) := by
  intro n
  induction n with
  | zero =>
    intro value hv m lineNum
    have hval : value = [] := List.eq_nil_of_length_eq_zero (Nat.le_zero.mp hv)
    subst hval
    unfold RobotsMatcher.HandleAllow
    split
    · exact monotoneScores_refl m
    · split
      · split <;> split <;>
          simp [monotoneScores] <;> omega
      · simp only [lastIndexOf]
        simp [monotoneScores]
  | succ k ih =>
    intro value hv m lineNum
    unfold RobotsMatcher.HandleAllow
    split
    · exact monotoneScores_refl m
    · split
      · split <;> split <;>
          simp [monotoneScores] <;> omega
      · split
        · split
          · rename_i slashPos hfound hp
            refine monotoneScores_trans (b := { m with seenSeparator := true }) ?_ ?_
            · exact ⟨Or.inl rfl, Or.inl rfl, Or.inl rfl, Or.inl rfl⟩
            · have hlen := List.IsPrefix.length_le (List.isPrefixOf_iff_prefix.mp hp)
              simp only [indexHtmBytes, List.length_cons, List.length_nil,
                List.length_drop] at hlen
              refine ih _ ?_ _ _
              simp only [List.length_append, List.length_take, List.length_cons,
                List.length_nil]
              omega
          · simp [monotoneScores]
        · simp [monotoneScores]

theorem monotone_handleDisallow (m : RobotsMatcher) (lineNum : Nat) (value : List Nat) :
    monotoneScores m (m.HandleDisallow lineNum value) := by
  unfold RobotsMatcher.HandleDisallow
  split
  · exact monotoneScores_refl m
  · split
    · split <;> split <;>
        simp [monotoneScores] <;> omega
    · simp [monotoneScores]

/-- C9: within a parse run each of the four stored scores (allow/disallow ×
global/specific) is monotone: an allow or disallow event either leaves a
stored score untouched or replaces it with one of strictly greater priority
(so ties keep the earlier line). -/
theorem c9_scores_monotone (m : RobotsMatcher) (lineNum : Nat) (value : List Nat) :
    monotoneScores m (m.HandleAllow lineNum value)
      ∧ monotoneScores m (m.HandleDisallow lineNum value) :=
  ⟨monotone_handleAllow value.length value le_rfl m lineNum,
    monotone_handleDisallow m lineNum value⟩

/-! ## C5: the `index.htm(l)` rewrite fires at most once -/

/-- The body of `HandleAllow` without the rewrite branch: a failed match
(`priority < 0`) only records that a separator was seen. -/
def handleAllowNoRewrite (m : RobotsMatcher) (lineNum : Nat) (value : List Nat) :
    RobotsMatcher :=
  if ¬ m.seenAnyAgent then m
  else
    if 0 ≤ MatchAllow m.path value then
      if m.seenSpecificAgent then
        if m.allowMatch.specific.priority < MatchAllow m.path value then
          { m with seenSeparator := true,
                   allowMatch := { m.allowMatch with
                                   specific := ⟨MatchAllow m.path value, lineNum⟩ } }
        else { m with seenSeparator := true }
      else
        if m.allowMatch.global.priority < MatchAllow m.path value then
          { m with seenSeparator := true,
                   allowMatch := { m.allowMatch with
                                   global := ⟨MatchAllow m.path value, lineNum⟩ } }
        else { m with seenSeparator := true }
    else { m with seenSeparator := true }

/-- `HandleAllow` with the rewrite depth explicitly bounded at one: the
synthesised pattern is processed by the non-recursive body. -/
def handleAllowDepth1 (m : RobotsMatcher) (lineNum : Nat) (value : List Nat) :
    RobotsMatcher :=
  if ¬ m.seenAnyAgent then m
  else
    if 0 ≤ MatchAllow m.path value then handleAllowNoRewrite m lineNum value
    else
      match lastIndexOf 47 value with
      | some slashPos =>
        if indexHtmBytes.isPrefixOf (value.drop slashPos) then
          handleAllowNoRewrite { m with seenSeparator := true } lineNum
            (value.take (slashPos + 1) ++ [36])
        else { m with seenSeparator := true }
      | none => { m with seenSeparator := true }

theorem lastIndexOf_concat (b c : Nat) (l : List Nat) :
    lastIndexOf b (l ++ [c]) = if c = b then some l.length else lastIndexOf b l := by
  induction l with
  | nil => by_cases hc : c = b <;> simp [lastIndexOf, hc]
  | cons d t ih =>
    rw [List.cons_append]
    by_cases hc : c = b
    · rw [if_pos hc] at ih ⊢
      simp only [lastIndexOf, ih, List.length_cons]
    · rw [if_neg hc] at ih ⊢
      simp only [lastIndexOf, ih]

/-- Facts about the synthesised pattern `value[..sp+1] ++ "$"` when the suffix
of `value` at its slash position `sp` begins with "/index.htm": its own last
slash is still at `sp`, and the suffix there is exactly `"/$"`. -/
theorem synth_pattern_facts {value : List Nat} {sp : Nat}
    (hp : indexHtmBytes.isPrefixOf (value.drop sp) = true) :
    lastIndexOf 47 (value.take (sp + 1) ++ [36]) = some sp
      ∧ (value.take (sp + 1) ++ [36]).drop sp = [47, 36] := by
  obtain ⟨t, ht⟩ := List.isPrefixOf_iff_prefix.mp hp
  have hlen := congrArg List.length ht
  simp only [List.length_append, List.length_drop, indexHtmBytes, List.length_cons,
    List.length_nil] at hlen
  have hsp : sp < value.length := by omega
  have hget : value[sp]? = some 47 := by
    have h0 : (value.drop sp)[0]? = some 47 := by
      rw [← ht]
      rfl
    rwa [List.getElem?_drop, Nat.add_zero] at h0
  have htake : value.take (sp + 1) = value.take sp ++ [47] := by
    rw [List.take_succ, hget]
    rfl
  have htlen : (value.take sp).length = sp := by
    simp [List.length_take]
    omega
  constructor
  · rw [htake, lastIndexOf_concat, if_neg (by decide), lastIndexOf_concat, if_pos rfl, htlen]
  · obtain ⟨A, hA, hAlen⟩ : ∃ A, value.take sp = A ∧ A.length = sp := ⟨_, rfl, htlen⟩
    rw [htake, hA, List.append_assoc, ← hAlen, List.drop_left]
    rfl

theorem handleAllow_on_synth (m1 : RobotsMatcher) (lineNum : Nat) {value : List Nat} {sp : Nat}
    (hp : indexHtmBytes.isPrefixOf (value.drop sp) = true) :
    RobotsMatcher.HandleAllow m1 lineNum (value.take (sp + 1) ++ [36])
      = handleAllowNoRewrite m1 lineNum (value.take (sp + 1) ++ [36]) := by
  obtain ⟨hli, hdrop⟩ := synth_pattern_facts hp
  unfold RobotsMatcher.HandleAllow handleAllowNoRewrite
  by_cases hagent : ¬ m1.seenAnyAgent = true
  · rw [if_pos hagent, if_pos hagent]
  · rw [if_neg hagent, if_neg hagent]
    by_cases hpri : (0 : Int) ≤ MatchAllow m1.path (value.take (sp + 1) ++ [36])
    · rw [if_pos hpri, if_pos hpri]
    · rw [if_neg hpri, if_neg hpri]
      simp only [hli, hdrop]
      rw [dif_neg (by decide)]

/-- C5: whenever an allow value fails to match (`priority < 0`) and the suffix
of the value from its last `/` begins with "/index.htm", the matcher
synthesises `value[..last_slash+1] ++ "$"` and re-processes it as an allow
rule; the synthesised pattern never itself triggers the rewrite (its suffix at
its last slash is `"/$"`), so the recursion depth is bounded at 1 and
`HandleAllow` coincides with the explicitly depth-1 `handleAllowDepth1`. -/
theorem c5_index_htm_rewrite (m : RobotsMatcher) (lineNum : Nat) (value : List Nat) :
    m.HandleAllow lineNum value = handleAllowDepth1 m lineNum value
      ∧ ∀ sp, indexHtmBytes.isPrefixOf (value.drop sp) = true →
          lastIndexOf 47 (value.take (sp + 1) ++ [36]) = some sp
            ∧ indexHtmBytes.isPrefixOf ((value.take (sp + 1) ++ [36]).drop sp) = false := by
  constructor
  · unfold RobotsMatcher.HandleAllow handleAllowDepth1
    by_cases hagent : ¬ m.seenAnyAgent = true
    · rw [if_pos hagent, if_pos hagent]
    · rw [if_neg hagent, if_neg hagent]
      by_cases hpri : (0 : Int) ≤ MatchAllow m.path value
      · rw [if_pos hpri, if_pos hpri]
        unfold handleAllowNoRewrite
        rw [if_neg hagent, if_pos hpri]
      · rw [if_neg hpri, if_neg hpri]
        cases hfound : lastIndexOf 47 value with
        | none => simp only [hfound]
        | some slashPos =>
          simp only [hfound]
          by_cases hp : indexHtmBytes.isPrefixOf (value.drop slashPos) = true
          · rw [dif_pos hp, if_pos hp]
            exact handleAllow_on_synth _ lineNum hp
          · rw [dif_neg hp, if_neg hp]
  · intro sp hp
    obtain ⟨hli, hdrop⟩ := synth_pattern_facts hp
    refine ⟨hli, ?_⟩
    rw [hdrop]
    decide

/-- Closed instance of the second part of C5 at value "/index.html", whose
last slash is at index 0. -/
theorem c5_index_htm_rewrite_witness :
    lastIndexOf 47 ((indexHtmBytes ++ [108]).take (0 + 1) ++ [36]) = some 0
      ∧ indexHtmBytes.isPrefixOf
          (((indexHtmBytes ++ [108]).take (0 + 1) ++ [36]).drop 0) = false :=
  (c5_index_htm_rewrite
    ⟨⟨⟨-1, 0⟩, ⟨-1, 0⟩⟩, ⟨⟨-1, 0⟩, ⟨-1, 0⟩⟩, false, false, false, false, [47], []⟩
    1 (indexHtmBytes ++ [108])).2 0 (by decide)

/-! ## Pattern canonicaliser (`MaybeEscapePattern`, robots_cc.go:189-261)

Go's closure `s(i)` pads out-of-range reads with the byte 0, modelled by
`nth0`.  `toUpper` is Go's `c & (0xFF - 0x20)` (note: applied to *any* hex
digit of a `%XY` sequence, digits `0`-`9` included). -/

def nth0 (l : List Nat) (i : Nat) : Nat := l.getD i 0

def isHexDigit (c : Nat) : Bool :=
  (48 ≤ c && c ≤ 57) || (97 ≤ c && c ≤ 102) || (65 ≤ c && c ≤ 70)

def isLower (c : Nat) : Bool := 97 ≤ c && c ≤ 122

def toUpper (c : Nat) : Nat := c &&& 223

/-- The table "0123456789ABCDEF". -/
def hexDigits : List Nat := [48, 49, 50, 51, 52, 53, 54, 55, 56, 57, 65, 66, 67, 68, 69, 70]

def hexDigit (i : Nat) : Nat := hexDigits.getD i 0

/-- First scan pass: does some `%XY` (X, Y hex) contain a lower-case letter? -/
def needCapitalise : List Nat → Bool
  | [] => false
  | b :: rest =>
    (if b = 37 ∧ isHexDigit (nth0 rest 0) ∧ isHexDigit (nth0 rest 1)
      then isLower (nth0 rest 0) || isLower (nth0 rest 1)
      else false)
    || needCapitalise rest

/-- First scan pass: number of bytes `≥ 0x80` (outside `%XY` sequences; a
byte `≥ 0x80` can never equal `'%'`, so the guard does not change the count). -/
def numToEscape : List Nat → Nat
  | [] => 0
  | b :: rest =>
    (if b = 37 ∧ isHexDigit (nth0 rest 0) ∧ isHexDigit (nth0 rest 1) then 0
      else if 128 ≤ b then 1 else 0)
    + numToEscape rest

/-- Second pass (robots_cc.go:223-242): normalise `%XY` via `toUpper`,
percent-escape bytes `≥ 0x80`, copy the rest. -/
def escapeWrite : List Nat → List Nat
  | [] => []
  | b :: rest =>
    if b = 37 ∧ isHexDigit (nth0 rest 0) ∧ isHexDigit (nth0 rest 1) then
      -- Go consumes the two look-ahead bytes (`i++` twice); the guard forces
      -- `rest = x :: y :: rest2` (a missing byte reads as 0, not a hex digit),
      -- so the one- and zero-byte branches below are dead code.
      match rest with
      | x :: y :: rest2 => 37 :: toUpper x :: toUpper y :: escapeWrite rest2
      | [x] => [37, toUpper x]
      | [] => [37]
    else if 128 ≤ b then
      37 :: hexDigit (b / 16 % 16) :: hexDigit (b % 16) :: escapeWrite rest
    else
      b :: escapeWrite rest

/-- robots_cc.go:189: `MaybeEscapePattern` returns `src` unchanged when the
scan finds nothing to do, else the rewritten buffer. -/
def MaybeEscapePattern (src : List Nat) : List Nat :=
  if numToEscape src = 0 ∧ needCapitalise src = false then src else escapeWrite src

-- "/a/b/c" unchanged; "%aa" -> "%AA"; 0xC3 0xA1 ("á") -> "%C3%A1";
-- and the Go `toUpper` applied to the digit of "%2f" produces byte 0x12.
example : MaybeEscapePattern [47, 97, 47, 98, 47, 99] = [47, 97, 47, 98, 47, 99] := by decide
example : MaybeEscapePattern [37, 97, 97] = [37, 65, 65] := by decide
example : MaybeEscapePattern [195, 161] = [37, 67, 51, 37, 65, 49] := by decide
example : MaybeEscapePattern [37, 50, 102] = [37, 18, 70] := by decide

theorem toUpper_hex {c : Nat} (h : isHexDigit c = true) :
    toUpper c < 128 ∧ toUpper c ≠ 37 ∧ isLower (toUpper c) = false := by
  have hb : 48 ≤ c ∧ c ≤ 102 := by
    simp [isHexDigit] at h
    omega
  obtain ⟨hlb, hub⟩ := hb
  interval_cases c <;> revert h <;> decide

theorem hexDigit_facts :
    ∀ j < 16, hexDigit j < 128 ∧ hexDigit j ≠ 37 ∧ isLower (hexDigit j) = false := by decide

theorem numToEscape_eq_zero (l : List Nat) (h : ∀ b ∈ l, b < 128) : numToEscape l = 0 := by
  induction l with
  | nil => rfl
  | cons b rest ih =>
    simp only [numToEscape]
    have hb : b < 128 := h b (by simp)
    rw [ih fun x hx => h x (by simp [hx])]
    split
    · rfl
    · rw [if_neg (by omega)]

/-- Shape-independent unfolding of `escapeWrite` on a cons cell: the two
consumed look-ahead bytes of the `%XY` branch are `rest.drop 2` (the guard
forces them to exist, which makes the short-list branches agree too). -/
theorem escapeWrite_cons_eq (b : Nat) (rest : List Nat) :
    escapeWrite (b :: rest)
      = if b = 37 ∧ isHexDigit (nth0 rest 0) = true ∧ isHexDigit (nth0 rest 1) = true then
          37 :: toUpper (nth0 rest 0) :: toUpper (nth0 rest 1) :: escapeWrite (rest.drop 2)
        else if 128 ≤ b then
          37 :: hexDigit (b / 16 % 16) :: hexDigit (b % 16) :: escapeWrite rest
        else
          b :: escapeWrite rest := by
  cases rest with
  | nil =>
    have hcond : ¬(b = 37 ∧ isHexDigit (nth0 ([] : List Nat) 0) = true
        ∧ isHexDigit (nth0 ([] : List Nat) 1) = true) := by
      simp [nth0, isHexDigit]
    simp only [escapeWrite]
    rw [if_neg hcond, if_neg hcond]
  | cons x rest1 =>
    cases rest1 with
    | nil =>
      have hcond : ¬(b = 37 ∧ isHexDigit (nth0 [x] 0) = true
          ∧ isHexDigit (nth0 [x] 1) = true) := by
        simp [nth0, isHexDigit]
      simp only [escapeWrite]
      rw [if_neg hcond, if_neg hcond]
    | cons y rest2 => rfl

/-- Every byte that the rewrite pass emits is ASCII (`< 0x80`). -/
theorem escapeWrite_lt_128 :
    ∀ (n : Nat) (l : List Nat), l.length ≤ n → ∀ b ∈ escapeWrite l, b < 128 := by
  intro n
  induction n with
  | zero =>
    intro l hl b hb
    have : l = [] := List.eq_nil_of_length_eq_zero (Nat.le_zero.mp hl)
    subst this
    cases hb
  | succ k ih =>
    intro l hl b hb
    cases l with
    | nil => cases hb
    | cons c rest =>
      rw [escapeWrite_cons_eq] at hb
      by_cases h1 : c = 37 ∧ isHexDigit (nth0 rest 0) = true ∧ isHexDigit (nth0 rest 1) = true
      · rw [if_pos h1] at hb
        obtain ⟨-, hx, hy⟩ := h1
        rcases List.mem_cons.mp hb with rfl | hb2
        · omega
        rcases List.mem_cons.mp hb2 with rfl | hb3
        · exact (toUpper_hex hx).1
        rcases List.mem_cons.mp hb3 with rfl | hb4
        · exact (toUpper_hex hy).1
        refine ih (rest.drop 2) ?_ b hb4
        simp only [List.length_drop, List.length_cons] at hl ⊢
        omega
      · rw [if_neg h1] at hb
        by_cases h2 : 128 ≤ c
        · rw [if_pos h2] at hb
          rcases List.mem_cons.mp hb with rfl | hb2
          · omega
          rcases List.mem_cons.mp hb2 with rfl | hb3
          · exact (hexDigit_facts _ (Nat.mod_lt _ (by omega))).1
          rcases List.mem_cons.mp hb3 with rfl | hb4
          · exact (hexDigit_facts _ (Nat.mod_lt _ (by omega))).1
          refine ih rest ?_ b hb4
          simp only [List.length_cons] at hl
          omega
        · rw [if_neg h2] at hb
          rcases List.mem_cons.mp hb with rfl | hb2
          · omega
          refine ih rest ?_ b hb2
          simp only [List.length_cons] at hl
          omega

/-- If the input look-ahead pair is not two hex digits, neither is the output
look-ahead pair of the rewrite pass (a `'%'`-starting emission is never a hex
digit, and a literal head byte is copied verbatim). -/
theorem escapeWrite_lookahead (rest : List Nat)
    (hin : ¬(isHexDigit (nth0 rest 0) = true ∧ isHexDigit (nth0 rest 1) = true)) :
    ¬(isHexDigit (nth0 (escapeWrite rest) 0) = true
        ∧ isHexDigit (nth0 (escapeWrite rest) 1) = true) := by
  cases rest with
  | nil =>
    intro h
    exact absurd h (by decide)
  | cons c rest2 =>
    rw [escapeWrite_cons_eq]
    by_cases h1 : c = 37 ∧ isHexDigit (nth0 rest2 0) = true ∧ isHexDigit (nth0 rest2 1) = true
    · rw [if_pos h1]
      intro h
      simp [nth0, isHexDigit] at h
    · rw [if_neg h1]
      by_cases h2 : 128 ≤ c
      · rw [if_pos h2]
        intro h
        simp [nth0, isHexDigit] at h
      · rw [if_neg h2]
        intro h
        obtain ⟨hc, hnext⟩ := h
        simp only [nth0, List.getD_cons_zero] at hc
        simp only [nth0, List.getD_cons_succ] at hnext
        -- hnext : the head of `escapeWrite rest2` is a hex digit
        cases rest2 with
        | nil => exact absurd hnext (by decide)
        | cons d rest3 =>
          rw [escapeWrite_cons_eq] at hnext
          by_cases hd1 : d = 37 ∧ isHexDigit (nth0 rest3 0) = true
              ∧ isHexDigit (nth0 rest3 1) = true
          · rw [if_pos hd1] at hnext
            simp [isHexDigit] at hnext
          · rw [if_neg hd1] at hnext
            by_cases hd2 : 128 ≤ d
            · rw [if_pos hd2] at hnext
              simp [isHexDigit] at hnext
            · rw [if_neg hd2] at hnext
              simp only [List.getD_cons_zero] at hnext
              refine hin ⟨?_, ?_⟩
              · simpa [nth0] using hc
              · simpa [nth0] using hnext

/-- The rewrite pass leaves no `%XY` sequence with a lower-case hex digit. -/
theorem needCapitalise_escapeWrite :
    ∀ (n : Nat) (l : List Nat), l.length ≤ n → needCapitalise (escapeWrite l) = false := by
  intro n
  induction n with
  | zero =>
    intro l hl
    have : l = [] := List.eq_nil_of_length_eq_zero (Nat.le_zero.mp hl)
    subst this
    rfl
  | succ k ih =>
    intro l hl
    cases l with
    | nil => rfl
    | cons c rest =>
      rw [escapeWrite_cons_eq]
      by_cases h1 : c = 37 ∧ isHexDigit (nth0 rest 0) = true ∧ isHexDigit (nth0 rest 1) = true
      · rw [if_pos h1]
        obtain ⟨-, hx, hy⟩ := h1
        have hrec : needCapitalise (escapeWrite (rest.drop 2)) = false := by
          refine ih (rest.drop 2) ?_
          simp only [List.length_drop, List.length_cons] at hl ⊢
          omega
        have hfx := toUpper_hex hx
        have hfy := toUpper_hex hy
        generalize nth0 rest 0 = u at hfx ⊢
        generalize nth0 rest 1 = v at hfy ⊢
        generalize escapeWrite (rest.drop 2) = E at hrec ⊢
        simp [needCapitalise, nth0, hfx.2.1, hfy.2.1, hfx.2.2, hfy.2.2, hrec]
      · rw [if_neg h1]
        by_cases h2 : 128 ≤ c
        · rw [if_pos h2]
          have hrec : needCapitalise (escapeWrite rest) = false := by
            refine ih rest ?_
            simp only [List.length_cons] at hl
            omega
          have hf1 := hexDigit_facts (c / 16 % 16) (Nat.mod_lt _ (by omega))
          have hf2 := hexDigit_facts (c % 16) (Nat.mod_lt _ (by omega))
          simp [needCapitalise, nth0, hf1.2.1, hf2.2.1, hf1.2.2, hf2.2.2, hrec]
        · rw [if_neg h2]
          have hrec : needCapitalise (escapeWrite rest) = false := by
            refine ih rest ?_
            simp only [List.length_cons] at hl
            omega
          simp only [needCapitalise, hrec, Bool.or_false]
          by_cases hc37 : c = 37
          · subst hc37
            have hin : ¬(isHexDigit (nth0 rest 0) = true ∧ isHexDigit (nth0 rest 1) = true) :=
              fun hh => h1 ⟨rfl, hh.1, hh.2⟩
            rw [if_neg fun hh => escapeWrite_lookahead rest hin ⟨hh.2.1, hh.2.2⟩]
          · rw [if_neg fun hh => hc37 hh.1]

/-- C7: the pattern canonicaliser is idempotent:
`MaybeEscapePattern (MaybeEscapePattern s) = MaybeEscapePattern s` for every
byte string `s`. -/
theorem c7_canonicaliser_idempotent (s : List Nat) :
    MaybeEscapePattern (MaybeEscapePattern s) = MaybeEscapePattern s := by
  by_cases h : numToEscape s = 0 ∧ needCapitalise s = false
  · have h1 : MaybeEscapePattern s = s := by
      unfold MaybeEscapePattern
      rw [if_pos h]
    rw [h1, h1]
  · have h1 : MaybeEscapePattern s = escapeWrite s := by
      unfold MaybeEscapePattern
      rw [if_neg h]
    have hesc : numToEscape (escapeWrite s) = 0 :=
      numToEscape_eq_zero _ (escapeWrite_lt_128 s.length s le_rfl)
    have hcap : needCapitalise (escapeWrite s) = false :=
      needCapitalise_escapeWrite s.length s le_rfl
    rw [h1]
    unfold MaybeEscapePattern
    rw [if_pos ⟨hesc, hcap⟩]

/-! ## URI path extractor (`GetPathParamsQuery`, robots_cc.go:115-179)

Go's find helpers return `-1` on failure, modelled with `Int`.
`findFirstOf s set i = strings.IndexAny(s[i:], set) + i`,
`find s pat i = strings.Index(s[i:], pat) + i`,
`findByte s b i = strings.IndexByte(s[i:], b) + i`. -/

def findFirstOfAux (set : List Nat) : List Nat → Nat → Int
  | [], _ => -1
  | b :: rest, i => if b ∈ set then (i : Int) else findFirstOfAux set rest (i + 1)

def findFirstOf (s set : List Nat) (i : Nat) : Int := findFirstOfAux set (s.drop i) i

def findAux (pat : List Nat) : List Nat → Nat → Int
  | [], i => if pat = [] then (i : Int) else -1
  | b :: rest, i => if pat.isPrefixOf (b :: rest) then (i : Int) else findAux pat rest (i + 1)

def find (s pat : List Nat) (i : Nat) : Int := findAux pat (s.drop i) i

def findByte (s : List Nat) (b : Nat) (i : Nat) : Int := findFirstOf s [b] i

/-- "/?;" -/
def slashQuerySemi : List Nat := [47, 63, 59]

/-- "://" -/
def colonSlashSlash : List Nat := [58, 47, 47]

/-- robots_cc.go:121: initial two slashes are ignored. -/
def searchStartOf (uri : List Nat) : Nat :=
  if 2 ≤ uri.length ∧ nth0 uri 0 = 47 ∧ nth0 uri 1 = 47 then 2 else 0

def earlyPathOf (uri : List Nat) : Int := findFirstOf uri slashQuerySemi (searchStartOf uri)

def protocolEnd0Of (uri : List Nat) : Int := find uri colonSlashSlash (searchStartOf uri)

/-- robots_cc.go:128: a path/param/query before "://" voids the protocol. -/
def protocolEnd1Of (uri : List Nat) : Int :=
  if earlyPathOf uri ≠ -1 ∧ earlyPathOf uri < protocolEnd0Of uri then -1
  else protocolEnd0Of uri

def protocolEndOf (uri : List Nat) : Int :=
  if protocolEnd1Of uri = -1 then (searchStartOf uri : Int) else protocolEnd1Of uri + 3

def pathStartOf (uri : List Nat) : Int :=
  findFirstOf uri slashQuerySemi (protocolEndOf uri).toNat

def hashPosOf (uri : List Nat) : Int := findByte uri 35 (searchStartOf uri)

def pathEndOf (uri : List Nat) : Int :=
  if hashPosOf uri = -1 then (uri.length : Int) else hashPosOf uri

/-- robots_cc.go:115: `GetPathParamsQuery`. -/
def GetPathParamsQuery (uri : List Nat) : List Nat :=
  if pathStartOf uri ≠ -1 then
    if hashPosOf uri ≠ -1 ∧ hashPosOf uri < pathStartOf uri then [47]
    else
      if nth0 uri (pathStartOf uri).toNat ≠ 47 then
        47 :: (uri.drop (pathStartOf uri).toNat).take (pathEndOf uri - pathStartOf uri).toNat
      else
        (uri.drop (pathStartOf uri).toNat).take (pathEndOf uri - pathStartOf uri).toNat
  else [47]

-- Test vectors from the repository's getPathParamsQuery tests:
-- "" -> "/", "http://www.example.com/a/b" -> "/a/b" (with params ";", query "?"),
-- "example.com" -> "/", "//a/b" -> "/b" (initial double slash skipped),
-- fragment-only "http://e.com#f" -> "/".
example : GetPathParamsQuery [] = [47] := by decide
example :
    GetPathParamsQuery
      [104, 116, 116, 112, 58, 47, 47, 101, 46, 99, 111, 109, 47, 97, 35, 102]
      = [47, 97] := by decide
example : GetPathParamsQuery [101, 46, 99, 111, 109] = [47] := by decide
example : GetPathParamsQuery [47, 47, 97, 47, 98] = [47, 98] := by decide
example : GetPathParamsQuery [101, 46, 99, 111, 109, 47, 97, 59, 120] = [47, 97, 59, 120] := by
  decide

theorem nth0_cons_zero (b : Nat) (t : List Nat) : nth0 (b :: t) 0 = b := rfl

theorem nth0_cons_succ (b : Nat) (t : List Nat) (k : Nat) :
    nth0 (b :: t) (k + 1) = nth0 t k := rfl

/-- Characterisation of `findFirstOfAux`: either no byte of `l` is in the set
and the result is `-1`, or the result is the absolute index of the first one. -/
theorem findFirstOfAux_spec (set : List Nat) :
    ∀ (l : List Nat) (i : Nat),
      (findFirstOfAux set l i = -1 ∧ ∀ t, t < l.length → nth0 l t ∉ set)
        ∨ (∃ t : Nat, t < l.length ∧ findFirstOfAux set l i = ((i + t : Nat) : Int)
            ∧ nth0 l t ∈ set ∧ ∀ u, u < t → nth0 l u ∉ set) := by
  intro l
  induction l with
  | nil =>
    intro i
    left
    exact ⟨rfl, by simp⟩
  | cons b rest ih =>
    intro i
    by_cases hb : b ∈ set
    · right
      exact ⟨0, by simp, by simp [findFirstOfAux, hb], by simpa [nth0] using hb, by omega⟩
    · rcases ih (i + 1) with ⟨h1, h2⟩ | ⟨t, ht, heq, hmem, hmin⟩
      · left
        refine ⟨by simp [findFirstOfAux, hb, h1], ?_⟩
        intro t htl
        cases t with
        | zero => simpa [nth0] using hb
        | succ u =>
          simp only [nth0_cons_succ]
          exact h2 u (by simpa using htl)
      · right
        refine ⟨t + 1, by simpa using ht, ?_, by simpa [nth0_cons_succ] using hmem, ?_⟩
        · rw [show findFirstOfAux set (b :: rest) i = findFirstOfAux set rest (i + 1) from by
            simp [findFirstOfAux, hb], heq]
          congr 1
          omega
        · intro u hu
          cases u with
          | zero => simpa [nth0] using hb
          | succ w =>
            simp only [nth0_cons_succ]
            exact hmin w (by omega)

theorem nth0_drop (s : List Nat) (i t : Nat) : nth0 (s.drop i) t = nth0 s (i + t) := by
  simp [nth0, List.getD_eq_getElem?_getD, List.getElem?_drop]

/-- Characterisation of `findFirstOf` on the full string. -/
theorem findFirstOf_spec (s set : List Nat) (i : Nat) :
    (findFirstOf s set i = -1 ∧ ∀ j, i ≤ j → j < s.length → nth0 s j ∉ set)
      ∨ (∃ j : Nat, i ≤ j ∧ j < s.length ∧ findFirstOf s set i = (j : Int)
          ∧ nth0 s j ∈ set ∧ ∀ k, i ≤ k → k < j → nth0 s k ∉ set) := by
  rcases findFirstOfAux_spec set (s.drop i) i with ⟨h1, h2⟩ | ⟨t, ht, heq, hmem, hmin⟩
  · left
    refine ⟨h1, ?_⟩
    intro j hij hjl
    have := h2 (j - i) (by simp only [List.length_drop]; omega)
    rwa [nth0_drop, show i + (j - i) = j from by omega] at this
  · right
    refine ⟨i + t, by omega, ?_, heq, by rwa [nth0_drop] at hmem, ?_⟩
    · simp only [List.length_drop] at ht
      omega
    · intro k hik hkt
      have := hmin (k - i) (by omega)
      rwa [nth0_drop, show i + (k - i) = k from by omega] at this

theorem findAux_spec (pat : List Nat) :
    ∀ (l : List Nat) (i : Nat),
      findAux pat l i = -1
        ∨ ∃ t : Nat, findAux pat l i = ((i + t : Nat) : Int)
            ∧ pat.isPrefixOf (l.drop t) = true := by
  intro l
  induction l with
  | nil =>
    intro i
    by_cases hp : pat = []
    · right
      exact ⟨0, by simp [findAux, hp], by simp [hp, List.isPrefixOf]⟩
    · left
      simp [findAux, hp]
  | cons b rest ih =>
    intro i
    by_cases hp : pat.isPrefixOf (b :: rest) = true
    · right
      exact ⟨0, by simp [findAux, hp], by simpa using hp⟩
    · rcases ih (i + 1) with h1 | ⟨t, heq, hpre⟩
      · left
        simp [findAux, hp, h1]
      · right
        refine ⟨t + 1, ?_, by simpa using hpre⟩
        rw [show findAux pat (b :: rest) i = findAux pat rest (i + 1) from by
          simp [findAux, hp], heq]
        congr 1
        omega

theorem find_spec (s pat : List Nat) (i : Nat) :
    find s pat i = -1
      ∨ ∃ j : Nat, i ≤ j ∧ find s pat i = (j : Int)
          ∧ pat.isPrefixOf (s.drop j) = true := by
  rcases findAux_spec pat (s.drop i) i with h1 | ⟨t, heq, hpre⟩
  · left
    exact h1
  · right
    refine ⟨i + t, by omega, heq, ?_⟩
    rwa [List.drop_drop] at hpre

theorem nth0_eq_getElem {l : List Nat} {j : Nat} (h : j < l.length) : nth0 l j = l[j] := by
  simp [nth0, List.getD_eq_getElem?_getD, List.getElem?_eq_getElem h]

/-- C8: for every input byte string (empty, scheme-less, `//`-prefixed,
fragment-only, ...) the URI path extractor returns a non-empty string whose
first byte is `'/'`. -/
theorem c8_extractor_returns_slash (uri : List Nat) :
    (GetPathParamsQuery uri).head? = some 47 := by
  unfold GetPathParamsQuery
  by_cases hps : pathStartOf uri ≠ -1
  · rw [if_pos hps]
    rcases findFirstOf_spec uri slashQuerySemi (protocolEndOf uri).toNat with
      ⟨hn, -⟩ | ⟨j, hij, hjlen, heq, hmem, -⟩
    · exact absurd hn hps
    · have hps_eq : pathStartOf uri = (j : Int) := heq
      rw [hps_eq]
      by_cases hh : hashPosOf uri ≠ -1 ∧ hashPosOf uri < (j : Int)
      · rw [if_pos hh]
        rfl
      · rw [if_neg hh]
        have hpe : (j : Int) < pathEndOf uri := by
          unfold pathEndOf
          by_cases hhp : hashPosOf uri = -1
          · rw [if_pos hhp]
            omega
          · rw [if_neg hhp]
            rcases findFirstOf_spec uri [35] (searchStartOf uri) with
              ⟨hn2, -⟩ | ⟨h2, -, hh2len, heq2, hmem2, -⟩
            · exact absurd hn2 hhp
            · have hhp_eq : hashPosOf uri = (h2 : Int) := heq2
              rw [hhp_eq] at hh ⊢
              have hne : j ≠ h2 := by
                intro hje
                subst hje
                simp only [slashQuerySemi, List.mem_cons, List.not_mem_nil, or_false] at hmem
                simp only [List.mem_singleton] at hmem2
                omega
              omega
        by_cases hslash : nth0 uri ((j : Int)).toNat ≠ 47
        · rw [if_pos hslash]
          rfl
        · rw [if_neg hslash]
          push_neg at hslash
          have htn : ((j : Int)).toNat = j := rfl
          rw [htn] at hslash ⊢
          obtain ⟨k, hk⟩ : ∃ k, (pathEndOf uri - (j : Int)).toNat = k + 1 :=
            ⟨(pathEndOf uri - (j : Int)).toNat - 1, by omega⟩
          rw [hk, List.drop_eq_getElem_cons hjlen, List.take_succ_cons, List.head?_cons,
            ← nth0_eq_getElem hjlen, hslash]
  · rw [if_neg hps]
    rfl

/-- For a URI that already starts with `/` but not `//`, the extractor
returns the prefix up to the first `#` (or the whole string); that prefix is
non-empty, no longer than the input, and `#`-free. -/
theorem extract_path_props (t : List Nat) (h1 : nth0 (47 :: t) 1 ≠ 47) :
    GetPathParamsQuery (47 :: t) = (47 :: t).take (pathEndOf (47 :: t)).toNat
      ∧ 1 ≤ (pathEndOf (47 :: t)).toNat
      ∧ (pathEndOf (47 :: t)).toNat ≤ (47 :: t).length
      ∧ ∀ k, k < (pathEndOf (47 :: t)).toNat → nth0 (47 :: t) k ≠ 35 := by
  have hss : searchStartOf (47 :: t) = 0 := by
    unfold searchStartOf
    rw [if_neg fun hc => h1 hc.2.2]
  have hep : earlyPathOf (47 :: t) = 0 := by
    unfold earlyPathOf
    rw [hss]
    simp [findFirstOf, findFirstOfAux, slashQuerySemi]
  have hpe0 : protocolEndOf (47 :: t) = 0 := by
    rcases find_spec (47 :: t) colonSlashSlash (searchStartOf (47 :: t)) with
      hf | ⟨j, hij, heqf, hpre⟩
    · have hp0 : protocolEnd0Of (47 :: t) = -1 := hf
      unfold protocolEndOf protocolEnd1Of
      rw [hp0, hep, hss]
      norm_num
    · have hj0 : j ≠ 0 := by
        intro h0
        subst h0
        simp [colonSlashSlash, List.isPrefixOf] at hpre
      have hp0 : protocolEnd0Of (47 :: t) = (j : Int) := heqf
      unfold protocolEndOf protocolEnd1Of
      rw [hp0, hep, hss]
      have hcond : (0 : Int) ≠ -1 ∧ (0 : Int) < (j : Int) := ⟨by decide, by omega⟩
      rw [if_pos hcond]
      norm_num
  have hps : pathStartOf (47 :: t) = 0 := by
    unfold pathStartOf
    rw [hpe0]
    simp [findFirstOf, findFirstOfAux, slashQuerySemi]
  rcases findFirstOf_spec (47 :: t) [35] (searchStartOf (47 :: t)) with
    ⟨hn, hall⟩ | ⟨h2, -, hh2len, heq2, hmem2, hmin2⟩
  · have hhp : hashPosOf (47 :: t) = -1 := hn
    have hpE : pathEndOf (47 :: t) = ((47 :: t).length : Int) := by
      unfold pathEndOf
      rw [hhp]
      norm_num
    refine ⟨?_, ?_, ?_, ?_⟩
    · unfold GetPathParamsQuery
      rw [hps, hhp, hpE, if_pos (by decide), if_neg (by norm_num),
        if_neg (by simp [nth0])]
      simp
    · rw [hpE]
      simp
    · rw [hpE]
      simp
    · intro k hk
      rw [hpE] at hk
      simp only [Int.toNat_ofNat] at hk
      have := hall k (by rw [hss]; omega) hk
      simpa using this
  · have hhp_eq : hashPosOf (47 :: t) = (h2 : Int) := heq2
    have h20 : h2 ≠ 0 := by
      intro h0
      subst h0
      simp [nth0] at hmem2
    have hpE : pathEndOf (47 :: t) = (h2 : Int) := by
      unfold pathEndOf
      rw [hhp_eq]
      rw [if_neg (by omega)]
    refine ⟨?_, ?_, ?_, ?_⟩
    · unfold GetPathParamsQuery
      rw [hps, hhp_eq, hpE, if_pos (by decide), if_neg (by omega),
        if_neg (by simp [nth0])]
      simp
    · rw [hpE]
      omega
    · rw [hpE]
      simp only [Int.toNat_ofNat]
      omega
    · intro k hk
      rw [hpE] at hk
      simp only [Int.toNat_ofNat] at hk
      have := hmin2 k (by rw [hss]; omega) hk
      simpa using this

/-- C4 (amended): the URI path extractor is idempotent on inputs that start
with `'/'` but not with `"//"`: `extract (extract u) = extract u`. -/
theorem c4_extract_idempotent (uri : List Nat) (h0 : uri.head? = some 47)
    (h1 : nth0 uri 1 ≠ 47) :
    GetPathParamsQuery (GetPathParamsQuery uri) = GetPathParamsQuery uri := by
  obtain ⟨t, rfl⟩ : ∃ t, uri = 47 :: t := by
    cases uri with
    | nil => cases h0
    | cons b t => exact ⟨t, by rw [show b = 47 from by simpa using h0]⟩
  obtain ⟨hv, hv1, hvlen, hv35⟩ := extract_path_props t h1
  rw [hv]
  obtain ⟨N, hN⟩ : ∃ N, (pathEndOf (47 :: t)).toNat = N + 1 :=
    ⟨(pathEndOf (47 :: t)).toNat - 1, by omega⟩
  rw [hN] at hv35 ⊢
  rw [List.take_succ_cons]
  have h1' : nth0 (47 :: t.take N) 1 ≠ 47 := by
    show nth0 (t.take N) 0 ≠ 47
    simp only [nth0, List.getD_eq_getElem?_getD, List.getElem?_take]
    by_cases hN0 : 0 < N
    · rw [if_pos hN0]
      simpa [nth0, List.getD_eq_getElem?_getD] using h1
    · rw [if_neg hN0]
      simp
  obtain ⟨hv', -, -, -⟩ := extract_path_props (t.take N) h1'
  rw [hv']
  have hfull : pathEndOf (47 :: t.take N) = (((47 :: t.take N)).length : Int) := by
    unfold pathEndOf
    rcases findFirstOf_spec (47 :: t.take N) [35] (searchStartOf (47 :: t.take N)) with
      ⟨hn, -⟩ | ⟨h2, -, hh2len, heq2, hmem2, -⟩
    · have hhp : hashPosOf (47 :: t.take N) = -1 := hn
      rw [hhp]
      norm_num
    · exfalso
      have hcast : (47 :: t.take N) = (47 :: t).take (N + 1) := by
        rw [List.take_succ_cons]
      have hlen_le : (47 :: t.take N).length ≤ N + 1 := by
        simp
      have hval : nth0 (47 :: t.take N) h2 = nth0 (47 :: t) h2 := by
        rw [hcast]
        simp only [nth0, List.getD_eq_getElem?_getD, List.getElem?_take]
        rw [if_pos (by omega)]
      have h35 : nth0 (47 :: t) h2 = 35 := by
        rw [← hval]
        simpa using hmem2
      exact hv35 h2 (by omega) h35
  rw [hfull, Int.toNat_ofNat, List.take_length]

/-- C4 counterexample: the input "////" starts with `'/'`, yet
`extract (extract "////") = "/" ≠ "//" = extract "////"`; the claim as
stated (for every URI starting with `'/'`) fails. -/
theorem c4_counterexample :
    nth0 [47, 47, 47, 47] 0 = 47
      ∧ GetPathParamsQuery (GetPathParamsQuery [47, 47, 47, 47])
          ≠ GetPathParamsQuery [47, 47, 47, 47] := by decide

/-- Closed instance of C4 at the path "/a#b". -/
theorem c4_extract_idempotent_witness :
    GetPathParamsQuery (GetPathParamsQuery [47, 97, 35, 98])
      = GetPathParamsQuery [47, 97, 35, 98] :=
  c4_extract_idempotent [47, 97, 35, 98] (by decide) (by decide)

/-! ## Line splitting (`RobotsTxtParser.Parse`, robots_cc.go:473-538)

`parseLines body` is the ordered list of `(lineNum, content)` pairs the Go
loop passes to `ParseAndEmitLine`, including the unconditional final call on
the (possibly empty) unterminated tail. -/

def maxLineLen : Nat := 2083 * 8

/-- robots_cc.go:519-522: append to the line buffer while there is room
(the buffer caps at `maxLineLen - 1` bytes). -/
def appendCapped (buf : List Nat) (b : Nat) : List Nat :=
  if buf.length < maxLineLen - 1 then buf ++ [b] else buf

/-- robots_cc.go:491-504: skip a UTF-8 BOM, including partial BOMs; a
mismatching byte after a partial prefix leaves the prefix consumed. -/
def skipBOM (l : List Nat) : List Nat :=
  if l.take 3 = [239, 187, 191] then l.drop 3
  else if l.take 2 = [239, 187] then l.drop 2
  else if l.take 1 = [239] then l.drop 1
  else l

/-- robots_cc.go:513-536: the read loop.  State: remaining bytes, line
buffer, `lastWasCarriageReturn`, current line number. -/
def parseLinesLoop : List Nat → List Nat → Bool → Nat → List (Nat × List Nat)
  | [], buf, _, n => [(n + 1, buf)]
  | b :: rest, buf, lastCR, n =>
    if b ≠ 10 ∧ b ≠ 13 then
      parseLinesLoop rest (appendCapped buf b) lastCR n
    else
      -- Only emit an empty line if this was not the second byte of \r\n.
      if buf = [] ∧ lastCR = true ∧ b = 10 then
        parseLinesLoop rest [] (decide (b = 13)) n
      else
        (n + 1, buf) :: parseLinesLoop rest [] (decide (b = 13)) (n + 1)

def parseLines (body : List Nat) : List (Nat × List Nat) :=
  parseLinesLoop (skipBOM body) [] false 0

/-- The same loop with an uncapped line buffer (specification side). -/
def parseLinesLoopU : List Nat → List Nat → Bool → Nat → List (Nat × List Nat)
  | [], buf, _, n => [(n + 1, buf)]
  | b :: rest, buf, lastCR, n =>
    if b ≠ 10 ∧ b ≠ 13 then
      parseLinesLoopU rest (buf ++ [b]) lastCR n
    else
      if buf = [] ∧ lastCR = true ∧ b = 10 then
        parseLinesLoopU rest [] (decide (b = 13)) n
      else
        (n + 1, buf) :: parseLinesLoopU rest [] (decide (b = 13)) (n + 1)

def parseLinesU (body : List Nat) : List (Nat × List Nat) :=
  parseLinesLoopU (skipBOM body) [] false 0

/-- One-step unfolding of the capped loop on a cons cell. -/
theorem parseLinesLoop_cons_eq (b : Nat) (rest buf : List Nat) (cr : Bool) (n : Nat) :
    parseLinesLoop (b :: rest) buf cr n =
      if b ≠ 10 ∧ b ≠ 13 then
        parseLinesLoop rest (appendCapped buf b) cr n
      else if buf = [] ∧ cr = true ∧ b = 10 then
        parseLinesLoop rest [] (decide (b = 13)) n
      else
        (n + 1, buf) :: parseLinesLoop rest [] (decide (b = 13)) (n + 1) := rfl

/-- Spec §4.5: number of line terminators, `\n`, `\r` and `\r\n` each
counting as one. -/
def countTerminators : List Nat → Nat
  | [] => 0
  | [b] => if b = 13 ∨ b = 10 then 1 else 0
  | b :: c :: rest =>
    if b = 13 ∧ c = 10 then countTerminators rest + 1
    else if b = 13 ∨ b = 10 then countTerminators (c :: rest) + 1
    else countTerminators (c :: rest)

/-- Terminator count with a pending-carriage-return flag, mirroring the loop
state: a leading `\n` is the continuation of a just-seen `\r` iff `pending`. -/
def nTerms : List Nat → Bool → Nat
  | [], _ => 0
  | b :: rest, pending =>
    if b = 10 then (if pending then 0 else 1) + nTerms rest false
    else if b = 13 then 1 + nTerms rest true
    else nTerms rest false

-- "a\nb" gives lines 1:"a", 2:"b"; "a\r\n" gives 1:"a", 2:"" (final tail);
-- "\r\n\n" gives 1:"", 2:"", 3:"" and 2 + 1 line numbers;
-- a BOM is consumed before the first line.
example : parseLines [97, 10, 98] = [(1, [97]), (2, [98])] := by decide
example : parseLines [97, 13, 10] = [(1, [97]), (2, [])] := by decide
example : parseLines [13, 10, 10] = [(1, []), (2, []), (3, [])] := by decide
example : parseLines [239, 187, 191, 97] = [(1, [97])] := by decide
example : parseLines [239, 187, 65] = [(1, [65])] := by decide
example : countTerminators [97, 13, 10, 98, 13, 13] = 3 := by decide

theorem appendCapped_take (buf : List Nat) (b : Nat) :
    appendCapped (buf.take (maxLineLen - 1)) b = (buf ++ [b]).take (maxLineLen - 1) := by
  unfold appendCapped
  by_cases h : buf.length < maxLineLen - 1
  · rw [if_pos (by simp only [List.length_take]; omega)]
    rw [List.take_of_length_le (by omega), List.take_of_length_le (by simp; omega)]
  · rw [if_neg (by simp only [List.length_take]; omega)]
    rw [List.take_append_of_le_length (by omega)]

/-- The capped loop is the uncapped loop with every line truncated to
`maxLineLen - 1` bytes. -/
theorem parseLinesLoop_eq_capped :
    ∀ (bs buf : List Nat) (lastCR : Bool) (n : Nat),
      parseLinesLoop bs (buf.take (maxLineLen - 1)) lastCR n
        = (parseLinesLoopU bs buf lastCR n).map
            (fun p => (p.1, p.2.take (maxLineLen - 1))) := by
  intro bs
  induction bs with
  | nil =>
    intro buf cr n
    simp [parseLinesLoop, parseLinesLoopU]
  | cons b rest ih =>
    intro buf cr n
    simp only [parseLinesLoop, parseLinesLoopU]
    by_cases hb : b ≠ 10 ∧ b ≠ 13
    · rw [if_pos hb, if_pos hb, appendCapped_take]
      exact ih (buf ++ [b]) cr n
    · rw [if_neg hb, if_neg hb]
      have hbe : (buf.take (maxLineLen - 1) = [] ∧ cr = true ∧ b = 10)
          ↔ (buf = [] ∧ cr = true ∧ b = 10) := by
        rw [List.take_eq_nil_iff]
        constructor
        · rintro ⟨h1 | h1, h2⟩
          · exact absurd h1 (by decide)
          · exact ⟨h1, h2⟩
        · rintro ⟨h1, h2⟩
          exact ⟨Or.inr h1, h2⟩
      by_cases hcont : buf = [] ∧ cr = true ∧ b = 10
      · rw [if_pos (hbe.mpr hcont), if_pos hcont]
        have htail := ih [] (decide (b = 13)) n
        simpa using htail
      · rw [if_neg (fun hh => hcont (hbe.mp hh)), if_neg hcont]
        simp only [List.map_cons]
        have htail := ih [] (decide (b = 13)) (n + 1)
        simp only [List.take_nil] at htail
        rw [htail]

/-- C3 (amended): the parser accepts up to `2083 × 8 − 1` bytes on each
line: every emitted line is the corresponding uncapped line truncated to
`2083 × 8 − 1` bytes, so a line of length at most `2083 × 8 − 1` is parsed
in full and on a longer line the bytes past that cap are silently
discarded. -/
theorem c3_line_cap (body : List Nat) :
    parseLines body
      = (parseLinesU body).map (fun p => (p.1, p.2.take (2083 * 8 - 1))) := by
  unfold parseLines parseLinesU
  have h := parseLinesLoop_eq_capped (skipBOM body) [] false 0
  simpa [maxLineLen] using h

theorem parseLinesLoopU_no_term :
    ∀ (bs buf : List Nat) (cr : Bool) (n : Nat), (∀ b ∈ bs, b ≠ 10 ∧ b ≠ 13) →
      parseLinesLoopU bs buf cr n = [(n + 1, buf ++ bs)] := by
  intro bs
  induction bs with
  | nil =>
    intro buf cr n _
    simp [parseLinesLoopU]
  | cons b rest ih =>
    intro buf cr n h
    have hb := h b (by simp)
    simp only [parseLinesLoopU]
    rw [if_pos hb, ih (buf ++ [b]) cr n (fun x hx => h x (by simp [hx]))]
    simp

theorem skipBOM_eq_of_head (l : List Nat) (h : l[0]? ≠ some 239) : skipBOM l = l := by
  unfold skipBOM
  rw [if_neg, if_neg, if_neg]
  · intro hc
    refine h ?_
    have := congrArg (fun x : List Nat => x[0]?) hc
    simpa [List.getElem?_take] using this
  · intro hc
    refine h ?_
    have := congrArg (fun x : List Nat => x[0]?) hc
    simpa [List.getElem?_take] using this
  · intro hc
    refine h ?_
    have := congrArg (fun x : List Nat => x[0]?) hc
    simpa [List.getElem?_take] using this

/-- C3 counterexample: a single line of exactly `2083 × 8` bytes (all `'a'`)
is not parsed in full — its last byte is discarded. -/
theorem c3_counterexample :
    parseLines (List.replicate (2083 * 8) 97) ≠ [(1, List.replicate (2083 * 8) 97)] := by
  have hno : ∀ b ∈ List.replicate (2083 * 8) (97 : Nat), b ≠ 10 ∧ b ≠ 13 := by
    intro b hb
    rcases List.eq_of_mem_replicate hb with rfl
    exact ⟨by omega, by omega⟩
  have hskip : skipBOM (List.replicate (2083 * 8) 97) = List.replicate (2083 * 8) 97 := by
    refine skipBOM_eq_of_head _ ?_
    rw [List.getElem?_replicate]
    norm_num
  have h1 : parseLines (List.replicate (2083 * 8) 97)
      = [(1, List.replicate (2083 * 8 - 1) 97)] := by
    rw [c3_line_cap]
    unfold parseLinesU
    rw [hskip, parseLinesLoopU_no_term _ _ _ _ hno]
    simp only [List.map_cons, List.map_nil, List.nil_append, List.take_replicate]
    rw [Nat.min_eq_left (by norm_num)]
  rw [h1]
  intro hc
  simp only [List.cons.injEq, Prod.mk.injEq] at hc
  have := congrArg List.length hc.1.2
  simp only [List.length_replicate] at this
  omega

/-! ### C6: line numbering -/

theorem count_cons_other {b : Nat} (hb13 : b ≠ 13) (hb10 : b ≠ 10) (l : List Nat) :
    countTerminators (b :: l) = countTerminators l := by
  cases l with
  | nil => simp [countTerminators, hb13, hb10]
  | cons c l2 => simp [countTerminators, hb13, hb10]

theorem count_cons10 (l : List Nat) : countTerminators (10 :: l) = countTerminators l + 1 := by
  cases l with
  | nil => rfl
  | cons c l2 => simp [countTerminators]

theorem count_cons13_10 (l : List Nat) :
    countTerminators (13 :: 10 :: l) = countTerminators l + 1 := by
  simp [countTerminators]

theorem count_cons13_other {c : Nat} (hc : c ≠ 10) (l : List Nat) :
    countTerminators (13 :: c :: l) = countTerminators (c :: l) + 1 := by
  simp [countTerminators, hc]

theorem nTerms_cons10 (l : List Nat) (p : Bool) :
    nTerms (10 :: l) p = (if p then 0 else 1) + nTerms l false := by
  simp [nTerms]

theorem nTerms_cons13 (l : List Nat) (p : Bool) :
    nTerms (13 :: l) p = 1 + nTerms l true := by
  simp [nTerms]

theorem nTerms_cons_other {b : Nat} (h10 : b ≠ 10) (h13 : b ≠ 13) (l : List Nat) (p : Bool) :
    nTerms (b :: l) p = nTerms l false := by
  simp [nTerms, h10, h13]

theorem nTerms_flag_of_ne_10 {c : Nat} (hc : c ≠ 10) (l : List Nat) (p : Bool) :
    nTerms (c :: l) p = nTerms (c :: l) false := by
  by_cases hc13 : c = 13
  · subst hc13
    rw [nTerms_cons13, nTerms_cons13]
  · rw [nTerms_cons_other hc hc13, nTerms_cons_other hc hc13]

theorem nTerms_false_eq_count :
    ∀ (n : Nat) (l : List Nat), l.length ≤ n → nTerms l false = countTerminators l := by
  intro n
  induction n with
  | zero =>
    intro l hl
    have : l = [] := List.eq_nil_of_length_eq_zero (Nat.le_zero.mp hl)
    subst this
    rfl
  | succ k ih =>
    intro l hl
    cases l with
    | nil => rfl
    | cons b rest =>
      by_cases hb10 : b = 10
      · subst hb10
        rw [nTerms_cons10, ih rest (by simp at hl; omega), count_cons10]
        rw [show (if (false : Bool) then 0 else 1) = 1 from rfl]
        omega
      · by_cases hb13 : b = 13
        · subst hb13
          rw [nTerms_cons13]
          cases rest with
          | nil => decide
          | cons c rest2 =>
            by_cases hc10 : c = 10
            · subst hc10
              rw [nTerms_cons10, ih rest2 (by simp at hl; omega), count_cons13_10]
              rw [show (if (true : Bool) then 0 else 1) = 0 from rfl]
              omega
            · rw [nTerms_flag_of_ne_10 hc10, ih (c :: rest2) (by simp at hl; simp; omega),
                count_cons13_other hc10]
              omega
        · rw [nTerms_cons_other hb10 hb13, ih rest (by simp at hl; omega),
            count_cons_other hb13 hb10]

theorem count_skipBOM (body : List Nat) :
    countTerminators (skipBOM body) = countTerminators body := by
  unfold skipBOM
  by_cases h3 : body.take 3 = [239, 187, 191]
  · rw [if_pos h3]
    conv_rhs => rw [← List.take_append_drop 3 body, h3]
    rw [List.cons_append, List.cons_append, List.cons_append, List.nil_append,
      count_cons_other (by omega) (by omega), count_cons_other (by omega) (by omega),
      count_cons_other (by omega) (by omega)]
  · rw [if_neg h3]
    by_cases h2 : body.take 2 = [239, 187]
    · rw [if_pos h2]
      conv_rhs => rw [← List.take_append_drop 2 body, h2]
      rw [List.cons_append, List.cons_append, List.nil_append,
        count_cons_other (by omega) (by omega), count_cons_other (by omega) (by omega)]
    · rw [if_neg h2]
      by_cases h1 : body.take 1 = [239]
      · rw [if_pos h1]
        conv_rhs => rw [← List.take_append_drop 1 body, h1]
        rw [List.cons_append, List.nil_append,
          count_cons_other (by omega) (by omega)]
      · rw [if_neg h1]

theorem skipBOM_getLast {body : List Nat} {b0 : Nat} (h : body.getLast? = some b0)
    (h239 : b0 ≠ 239) (h187 : b0 ≠ 187) (h191 : b0 ≠ 191) :
    (skipBOM body).getLast? = some b0 := by
  unfold skipBOM
  by_cases h3 : body.take 3 = [239, 187, 191]
  · rw [if_pos h3]
    rw [← List.take_append_drop 3 body, h3, List.getLast?_append] at h
    cases hx : (body.drop 3).getLast? with
    | none =>
      rw [hx] at h
      simp at h
      exfalso
      omega
    | some y =>
      rw [hx] at h
      simp at h
      rw [h]
  · rw [if_neg h3]
    by_cases h2 : body.take 2 = [239, 187]
    · rw [if_pos h2]
      rw [← List.take_append_drop 2 body, h2, List.getLast?_append] at h
      cases hx : (body.drop 2).getLast? with
      | none =>
        rw [hx] at h
        simp at h
        exfalso
        omega
      | some y =>
        rw [hx] at h
        simp at h
        rw [h]
    · rw [if_neg h2]
      by_cases h1 : body.take 1 = [239]
      · rw [if_pos h1]
        rw [← List.take_append_drop 1 body, h1, List.getLast?_append] at h
        cases hx : (body.drop 1).getLast? with
        | none =>
          rw [hx] at h
          simp at h
          exfalso
          omega
        | some y =>
          rw [hx] at h
          simp at h
          rw [h]
      · rw [if_neg h1]
        exact h

theorem parseLinesLoop_ne_nil :
    ∀ (bs buf : List Nat) (cr : Bool) (n : Nat), parseLinesLoop bs buf cr n ≠ [] := by
  intro bs
  induction bs with
  | nil =>
    intro buf cr n
    simp [parseLinesLoop]
  | cons b rest ih =>
    intro buf cr n
    simp only [parseLinesLoop]
    by_cases h1 : b ≠ 10 ∧ b ≠ 13
    · rw [if_pos h1]
      exact ih _ _ _
    · rw [if_neg h1]
      by_cases h2 : buf = [] ∧ cr = true ∧ b = 10
      · rw [if_pos h2]
        exact ih _ _ _
      · rw [if_neg h2]
        simp

theorem appendCapped_isEmpty (buf : List Nat) (b : Nat) :
    (appendCapped buf b).isEmpty = false := by
  unfold appendCapped
  split
  · simp
  · cases buf with
    | nil => simp [maxLineLen] at *
    | cons x xs => simp

/-- The line numbers the loop emits are consecutive, `n+1` up to
`n + nTerms + 1`. -/
theorem parseLinesLoop_map_fst :
    ∀ (bs buf : List Nat) (cr : Bool) (n : Nat),
      (parseLinesLoop bs buf cr n).map Prod.fst
        = List.range' (n + 1) (nTerms bs (buf.isEmpty && cr) + 1) := by
  intro bs
  induction bs with
  | nil =>
    intro buf cr n
    simp [parseLinesLoop, nTerms]
  | cons b rest ih =>
    intro buf cr n
    simp only [parseLinesLoop]
    by_cases h1 : b ≠ 10 ∧ b ≠ 13
    · rw [if_pos h1, ih (appendCapped buf b) cr n, appendCapped_isEmpty,
        nTerms_cons_other h1.1 h1.2]
      simp
    · rw [if_neg h1]
      by_cases h2 : buf = [] ∧ cr = true ∧ b = 10
      · obtain ⟨rfl, rfl, rfl⟩ := h2
        rw [if_pos ⟨rfl, rfl, rfl⟩, ih, nTerms_cons10]
        simp
      · rw [if_neg h2]
        have hb : b = 10 ∨ b = 13 := by
          rcases Decidable.not_and_iff_or_not.mp h1 with h | h <;> omega
        rcases hb with rfl | rfl
        · have hpend : (buf.isEmpty && cr) = false := by
            rcases Decidable.not_and_iff_or_not.mp (fun hh : buf = [] ∧ cr = true =>
              h2 ⟨hh.1, hh.2, rfl⟩) with h | h
            · cases buf with
              | nil => exact absurd rfl h
              | cons x xs => simp
            · simp [Bool.eq_false_iff.mpr h]
          rw [nTerms_cons10, hpend,
            show (if (false : Bool) then 0 else 1) = 1 from rfl,
            show (1 : Nat) + nTerms rest false + 1 = (nTerms rest false + 1) + 1 from by omega,
            List.range'_succ]
          simp only [List.map_cons, List.cons.injEq]
          refine ⟨trivial, ?_⟩
          have hih := ih [] (decide ((10 : Nat) = 13)) (n + 1)
          simpa using hih
        · rw [nTerms_cons13,
            show (1 : Nat) + nTerms rest true + 1 = (nTerms rest true + 1) + 1 from by omega,
            List.range'_succ]
          simp only [List.map_cons, List.cons.injEq]
          refine ⟨trivial, ?_⟩
          have hih := ih [] (decide ((13 : Nat) = 13)) (n + 1)
          simpa using hih

/-- When the byte stream ends with a terminator, the final emitted line (the
unterminated tail) is empty. -/
theorem parseLinesLoop_last_snd :
    ∀ (bs buf : List Nat) (cr : Bool) (n : Nat) (b0 : Nat),
      bs.getLast? = some b0 → b0 = 10 ∨ b0 = 13 →
      (parseLinesLoop bs buf cr n).getLast?.map Prod.snd = some [] := by
  intro bs
  induction bs with
  | nil =>
    intro buf cr n b0 h _
    cases h
  | cons b rest ih =>
    intro buf cr n b0 hlast hterm
    cases rest with
    | nil =>
      have hb : b = b0 := by simpa using hlast
      subst hb
      simp only [parseLinesLoop]
      rw [if_neg (show ¬(b ≠ 10 ∧ b ≠ 13) from by omega)]
      by_cases h2 : buf = [] ∧ cr = true ∧ b = 10
      · rw [if_pos h2]
        simp [parseLinesLoop]
      · rw [if_neg h2]
        simp [parseLinesLoop]
    | cons c rest2 =>
      have hlast' : (c :: rest2).getLast? = some b0 := by
        rwa [List.getLast?_cons_cons] at hlast
      rw [parseLinesLoop_cons_eq]
      by_cases h1 : b ≠ 10 ∧ b ≠ 13
      · rw [if_pos h1]
        exact ih _ _ _ _ hlast' hterm
      · rw [if_neg h1]
        by_cases h2 : buf = [] ∧ cr = true ∧ b = 10
        · rw [if_pos h2]
          exact ih _ _ _ _ hlast' hterm
        · rw [if_neg h2]
          have hne := parseLinesLoop_ne_nil (c :: rest2) [] (decide (b = 13)) (n + 1)
          have htail := ih [] (decide (b = 13)) (n + 1) b0 hlast' hterm
          cases hl : parseLinesLoop (c :: rest2) [] (decide (b = 13)) (n + 1) with
          | nil => exact absurd hl hne
          | cons q qs =>
            rw [hl] at htail
            rw [List.getLast?_cons_cons]
            exact htail

/-- C6 (amended): the loop always processes a final (possibly empty)
unterminated-tail line, so for a body with `n` terminators (`\n`, `\r`,
`\r\n` each counting as one) the emitted line numbers are exactly
`1, 2, ..., n+1` — the last reported line number is `n+1` even when the body
ends with a terminator, in which case that final line is empty (and an empty
line never produces a handler event). -/
theorem c6_line_numbering (body : List Nat) :
    (parseLines body).map Prod.fst = List.range' 1 (countTerminators body + 1)
      ∧ (∀ b0, body.getLast? = some b0 → b0 = 10 ∨ b0 = 13 →
          (parseLines body).getLast?.map Prod.snd = some []) := by
  constructor
  · unfold parseLines
    rw [parseLinesLoop_map_fst]
    simp only [List.isEmpty_nil, Bool.true_and, Bool.and_false]
    rw [nTerms_false_eq_count (skipBOM body).length _ le_rfl, count_skipBOM]
  · intro b0 hlast hterm
    unfold parseLines
    have hs : (skipBOM body).getLast? = some b0 :=
      skipBOM_getLast hlast (by omega) (by omega) (by omega)
    exact parseLinesLoop_last_snd _ _ _ _ b0 hs hterm

/-- C6 counterexample: the body "a\n" has one terminator and ends with it,
yet the last line number passed to per-line parsing is 2, not 1 (the parser
unconditionally processes the empty unterminated tail). -/
theorem c6_counterexample :
    countTerminators [97, 10] = 1
      ∧ [97, 10].getLast? = some 10
      ∧ (parseLines [97, 10]).getLast?.map Prod.fst = some 2 := by decide

/-- Closed instance of C6's second part at the body "a\n". -/
theorem c6_line_numbering_witness :
    (parseLines [97, 10]).getLast?.map Prod.snd = some [] :=
  (c6_line_numbering [97, 10]).2 10 (by decide) (by decide)

/-! ### Key/value extraction and the full parser (robots_cc.go:317-454, 473-538)

`GetKeyAndValueFrom` contains a `panic("Syntax error")` (robots_cc.go:427) and
`GetUnknownText` panics when called on a key that is not an unknown key with
text (robots_cc.go:323 in the original numbering).  Both are modelled as
`Except.error ()`; C10 asserts they are unreachable, so the parser as a whole
is total. -/

/-- The ASCII bytes `strings.TrimSpace` strips: `\t \n \v \f \r` and space. -/
def isSpaceByte (b : Nat) : Bool :=
  b = 9 || b = 10 || b = 11 || b = 12 || b = 13 || b = 32

/-- `strings.TrimSpace`: drop whitespace from both ends. -/
def trimSpace (l : List Nat) : List Nat :=
  ((l.dropWhile isSpaceByte).reverse.dropWhile isSpaceByte).reverse

/-- robots_cc.go:409-412: cut the line at the first `#`. -/
def stripComment (line : List Nat) : List Nat :=
  if findByte line 35 0 = -1 then line else line.take (findByte line 35 0).toNat

/-- robots_cc.go:443-452: split at the separator index, trim, and require a
non-empty key. -/
def finishKeyValue (line : List Nat) (sep : Nat) :
    Except Unit (Option (List Nat × List Nat)) :=
  if 0 < (trimSpace (line.take sep)).length then
    Except.ok (some (trimSpace (line.take sep), trimSpace (line.drop (sep + 1))))
  else
    Except.ok none

/-- robots_cc.go:417-441, applied to the comment-stripped and trimmed line:
prefer a `:` separator; otherwise accept a space/tab separator when the value
holds exactly one whitespace-free token, panicking (modelled as
`Except.error ()`) if that value trims to nothing. -/
def getKeyValueOfTrimmed (line : List Nat) :
    Except Unit (Option (List Nat × List Nat)) :=
  if findByte line 58 0 ≠ -1 then
    finishKeyValue line (findByte line 58 0).toNat
  else if findFirstOf line [32, 9] 0 = -1 then
    Except.ok none
  else if trimSpace (line.drop (findFirstOf line [32, 9] 0).toNat) = [] then
    Except.error ()
  else if findFirstOf
      (trimSpace (line.drop (findFirstOf line [32, 9] 0).toNat)) [32, 9] 0 ≠ -1 then
    Except.ok none
  else
    finishKeyValue line (findFirstOf line [32, 9] 0).toNat

/-- robots_cc.go:407-453 (`GetKeyAndValueFrom`). -/
def GetKeyAndValueFrom (line0 : List Nat) :
    Except Unit (Option (List Nat × List Nat)) :=
  getKeyValueOfTrimmed (trimSpace (stripComment line0))

/-- robots_cc.go:39. -/
def AllowFrequentTypos : Bool := true

/-- ASCII `strings.ToLower` on one byte. -/
def toLowerByte (b : Nat) : Nat := if 65 ≤ b ∧ b ≤ 90 then b + 32 else b

/-- robots_cc.go:352-354. -/
def startsWithIgnoreCase (x y : List Nat) : Bool :=
  (y.map toLowerByte).isPrefixOf (x.map toLowerByte)

/-- "user-agent" -/
def kwUserAgent : List Nat := [117, 115, 101, 114, 45, 97, 103, 101, 110, 116]
/-- "useragent" -/
def kwUserAgentTypo1 : List Nat := [117, 115, 101, 114, 97, 103, 101, 110, 116]
/-- "user agent" -/
def kwUserAgentTypo2 : List Nat := [117, 115, 101, 114, 32, 97, 103, 101, 110, 116]
/-- "allow" -/
def kwAllow : List Nat := [97, 108, 108, 111, 119]
/-- "disallow" -/
def kwDisallow : List Nat := [100, 105, 115, 97, 108, 108, 111, 119]
/-- "dissallow" -/
def kwDisallowTypo1 : List Nat := [100, 105, 115, 115, 97, 108, 108, 111, 119]
/-- "dissalow" -/
def kwDisallowTypo2 : List Nat := [100, 105, 115, 115, 97, 108, 111, 119]
/-- "disalow" -/
def kwDisallowTypo3 : List Nat := [100, 105, 115, 97, 108, 111, 119]
/-- "diasllow" -/
def kwDisallowTypo4 : List Nat := [100, 105, 97, 115, 108, 108, 111, 119]
/-- "disallaw" -/
def kwDisallowTypo5 : List Nat := [100, 105, 115, 97, 108, 108, 97, 119]
/-- "sitemap" -/
def kwSitemap : List Nat := [115, 105, 116, 101, 109, 97, 112]
/-- "site-map" -/
def kwSiteMap : List Nat := [115, 105, 116, 101, 45, 109, 97, 112]

inductive KeyType where
  | Unknown
  | UserAgent
  | Sitemap
  | Allow
  | Disallow
deriving DecidableEq

/-- robots_cc.go:330-334. -/
def KeyIsUserAgent (key : List Nat) : Bool :=
  startsWithIgnoreCase key kwUserAgent ||
    (AllowFrequentTypos && (startsWithIgnoreCase key kwUserAgentTypo1 ||
      startsWithIgnoreCase key kwUserAgentTypo2))

/-- robots_cc.go:336-339. -/
def KeyIsAllow (key : List Nat) : Bool := startsWithIgnoreCase key kwAllow

/-- robots_cc.go:341-350. -/
def KeyIsDisallow (key : List Nat) : Bool :=
  startsWithIgnoreCase key kwDisallow ||
    (AllowFrequentTypos && (startsWithIgnoreCase key kwDisallowTypo1 ||
      startsWithIgnoreCase key kwDisallowTypo2 ||
      startsWithIgnoreCase key kwDisallowTypo3 ||
      startsWithIgnoreCase key kwDisallowTypo4 ||
      startsWithIgnoreCase key kwDisallowTypo5))

/-- robots_cc.go:351-355 (`KeyIsSitemap`). -/
def KeyIsSitemap (key : List Nat) : Bool :=
  startsWithIgnoreCase key kwSitemap || startsWithIgnoreCase key kwSiteMap

structure ParsedRobotsKey where
  typ : KeyType
  keyText : List Nat
deriving DecidableEq

/-- robots_cc.go:298-313 (`ParsedRobotsKey.Parse`). -/
def ParsedRobotsKey.Parse (key : List Nat) : ParsedRobotsKey :=
  if KeyIsUserAgent key then ⟨KeyType.UserAgent, []⟩
  else if KeyIsAllow key then ⟨KeyType.Allow, []⟩
  else if KeyIsDisallow key then ⟨KeyType.Disallow, []⟩
  else if KeyIsSitemap key then ⟨KeyType.Sitemap, []⟩
  else ⟨KeyType.Unknown, key⟩

/-- robots_cc.go:320-326: panics (here: errors) unless the key is an unknown
key carrying its original text. -/
def GetUnknownText (k : ParsedRobotsKey) : Except Unit (List Nat) :=
  if k.typ = KeyType.Unknown ∧ k.keyText ≠ [] then Except.ok k.keyText
  else Except.error ()

/-- The handler calls, as an event stream. -/
inductive Event where
  | RobotsStart
  | RobotsEnd
  | UserAgent (line : Nat) (value : List Nat)
  | Allow (line : Nat) (value : List Nat)
  | Disallow (line : Nat) (value : List Nat)
  | Sitemap (line : Nat) (value : List Nat)
  | UnknownAction (line : Nat) (key value : List Nat)
deriving DecidableEq

/-- robots_cc.go:359-375 (`EmitKeyValueToHandler`). -/
def EmitKeyValueToHandler (line : Nat) (key : ParsedRobotsKey) (value : List Nat) :
    Except Unit Event :=
  match key.typ with
  | KeyType.UserAgent => Except.ok (Event.UserAgent line value)
  | KeyType.Allow => Except.ok (Event.Allow line value)
  | KeyType.Disallow => Except.ok (Event.Disallow line value)
  | KeyType.Sitemap => Except.ok (Event.Sitemap line value)
  | KeyType.Unknown => (GetUnknownText key).map (fun t => Event.UnknownAction line t value)

/-- robots_cc.go:397-405 (`NeedEscapeValueForKey`). -/
def NeedEscapeValueForKey (key : ParsedRobotsKey) : Bool :=
  match key.typ with
  | KeyType.UserAgent => false
  | KeyType.Sitemap => false
  | _ => true

/-- robots_cc.go:455-471 (`ParseAndEmitLine`): the events one line produces. -/
def ParseAndEmitLine (currentLine : Nat) (line : List Nat) :
    Except Unit (List Event) :=
  match GetKeyAndValueFrom line with
  | Except.error e => Except.error e
  | Except.ok none => Except.ok []
  | Except.ok (some (stringKey, value)) =>
    if NeedEscapeValueForKey (ParsedRobotsKey.Parse stringKey) then
      match EmitKeyValueToHandler currentLine (ParsedRobotsKey.Parse stringKey)
          (MaybeEscapePattern value) with
      | Except.error e => Except.error e
      | Except.ok ev => Except.ok [ev]
    else
      match EmitKeyValueToHandler currentLine (ParsedRobotsKey.Parse stringKey) value with
      | Except.error e => Except.error e
      | Except.ok ev => Except.ok [ev]

/-- The per-line loop of robots_cc.go:473-538, over the already-split lines. -/
def emitLines : List (Nat × List Nat) → Except Unit (List Event)
  | [] => Except.ok []
  | p :: rest =>
    match ParseAndEmitLine p.1 p.2 with
    | Except.error e => Except.error e
    | Except.ok evs =>
      match emitLines rest with
      | Except.error e => Except.error e
      | Except.ok evss => Except.ok (evs ++ evss)

/-- robots_cc.go:473-538 (`RobotsTxtParser.Parse`). -/
def Parse (body : List Nat) : Except Unit (List Event) :=
  match emitLines (parseLines body) with
  | Except.error e => Except.error e
  | Except.ok evs => Except.ok (Event.RobotsStart :: (evs ++ [Event.RobotsEnd]))

example :
    Parse [85, 115, 101, 114, 45, 97, 103, 101, 110, 116, 58, 32, 42, 10,
           68, 105, 115, 97, 108, 108, 111, 119, 58, 32, 47, 10]
      = Except.ok [Event.RobotsStart, Event.UserAgent 1 [42],
          Event.Disallow 2 [47], Event.RobotsEnd] := rfl

example :
    Parse [102, 111, 111, 32, 98, 97, 114]
      = Except.ok [Event.RobotsStart,
          Event.UnknownAction 1 [102, 111, 111] [98, 97, 114],
          Event.RobotsEnd] := rfl

example :
    Parse [102, 111, 111, 32, 98, 97, 114, 32, 99]
      = Except.ok [Event.RobotsStart, Event.RobotsEnd] := rfl

example :
    Parse [32, 58, 120, 10, 35, 99]
      = Except.ok [Event.RobotsStart, Event.RobotsEnd] := rfl

theorem head_dropWhile_not {p : Nat → Bool} :
    ∀ (l : List Nat) (b : Nat), (l.dropWhile p).head? = some b → p b = false := by
  intro l
  induction l with
  | nil => intro b h; cases h
  | cons c rest ih =>
    intro b h
    rw [List.dropWhile_cons] at h
    by_cases hc : p c
    · rw [if_pos hc] at h
      exact ih b h
    · rw [if_neg hc] at h
      simp only [List.head?_cons, Option.some.injEq] at h
      rw [← h]
      exact Bool.eq_false_iff.mpr hc

theorem mem_dropWhile_of_not {p : Nat → Bool} :
    ∀ (l : List Nat) (b : Nat), b ∈ l → p b = false → b ∈ l.dropWhile p := by
  intro l
  induction l with
  | nil => intro b h; cases h
  | cons c rest ih =>
    intro b h hb
    rw [List.dropWhile_cons]
    by_cases hc : p c
    · rw [if_pos hc]
      rcases List.mem_cons.mp h with rfl | h2
      · rw [hb] at hc; cases hc
      · exact ih b h2 hb
    · rw [if_neg hc]
      exact h

/-- Trimming removes only whitespace: a non-whitespace member survives. -/
theorem trimSpace_ne_nil_of_mem {l : List Nat} {b : Nat} (hb : b ∈ l)
    (hws : isSpaceByte b = false) : trimSpace l ≠ [] := by
  have h1 : b ∈ l.dropWhile isSpaceByte := mem_dropWhile_of_not l b hb hws
  have h2 : b ∈ (l.dropWhile isSpaceByte).reverse := List.mem_reverse.mpr h1
  have h3 : b ∈ (l.dropWhile isSpaceByte).reverse.dropWhile isSpaceByte :=
    mem_dropWhile_of_not _ b h2 hws
  have h4 : b ∈ trimSpace l := by
    unfold trimSpace
    exact List.mem_reverse.mpr h3
  exact List.ne_nil_of_mem h4

/-- The last byte of a trimmed string is not whitespace. -/
theorem trimSpace_getLast_not_ws {l : List Nat} {b : Nat}
    (h : (trimSpace l).getLast? = some b) : isSpaceByte b = false := by
  unfold trimSpace at h
  rw [List.getLast?_reverse] at h
  exact head_dropWhile_not _ b h

theorem getLast?_drop_of_lt :
    ∀ (l : List Nat) (k : Nat), k < l.length → (l.drop k).getLast? = l.getLast? := by
  intro l
  induction l with
  | nil => intro k h; simp at h
  | cons c rest ih =>
    intro k h
    cases k with
    | zero => rfl
    | succ k2 =>
      rw [List.drop_succ_cons]
      have h2 : k2 < rest.length := by simpa using h
      rw [ih k2 h2]
      cases rest with
      | nil => simp at h2
      | cons d rest2 => rw [List.getLast?_cons_cons]

theorem finishKeyValue_ok (line : List Nat) (sep : Nat) :
    ∃ r, finishKeyValue line sep = Except.ok r
      ∧ ∀ k v, r = some (k, v) → k ≠ [] := by
  unfold finishKeyValue
  by_cases h : 0 < (trimSpace (line.take sep)).length
  · refine ⟨some (trimSpace (line.take sep), trimSpace (line.drop (sep + 1))),
      by rw [if_pos h], ?_⟩
    intro k v hkv
    simp only [Option.some.injEq, Prod.mk.injEq] at hkv
    rw [← hkv.1]
    exact List.length_pos.mp h
  · exact ⟨none, by rw [if_neg h], fun k v hkv => Option.noConfusion hkv⟩

/-- The `Syntax error` panic of robots_cc.go:427 is unreachable: the input
line has already been trimmed, so its last byte is not whitespace and
survives the second trim.  On success a returned key is non-empty. -/
theorem getKeyAndValueFrom_ok (line0 : List Nat) :
    ∃ r, GetKeyAndValueFrom line0 = Except.ok r
      ∧ ∀ k v, r = some (k, v) → k ≠ [] := by
  unfold GetKeyAndValueFrom
  unfold getKeyValueOfTrimmed
  by_cases h58 : findByte (trimSpace (stripComment line0)) 58 0 ≠ -1
  · rw [if_pos h58]
    exact finishKeyValue_ok _ _
  · rw [if_neg h58]
    by_cases hws : findFirstOf (trimSpace (stripComment line0)) [32, 9] 0 = -1
    · rw [if_pos hws]
      exact ⟨none, rfl, fun k v hkv => Option.noConfusion hkv⟩
    · rw [if_neg hws]
      -- The separator index is a real index into the trimmed line.
      have hsep : (findFirstOf (trimSpace (stripComment line0)) [32, 9] 0).toNat
          < (trimSpace (stripComment line0)).length := by
        rcases findFirstOf_spec (trimSpace (stripComment line0)) [32, 9] 0 with
          ⟨h1, _⟩ | ⟨j, _, hj, heq, _, _⟩
        · exact absurd h1 hws
        · rw [heq, Int.toNat_ofNat]
          exact hj
      -- The trimmed line ends in a non-whitespace byte.
      have hne : trimSpace (stripComment line0) ≠ [] := by
        intro hnil
        rw [hnil] at hsep
        simp at hsep
      obtain ⟨b0, hb0⟩ : ∃ b0, (trimSpace (stripComment line0)).getLast? = some b0 := by
        cases hx : (trimSpace (stripComment line0)).getLast? with
        | none => exact absurd (List.getLast?_eq_none_iff.mp hx) hne
        | some b0 => exact ⟨b0, rfl⟩
      have hb0ws : isSpaceByte b0 = false := trimSpace_getLast_not_ws hb0
      -- That byte is still present after dropping up to the separator.
      have hmem : b0 ∈ (trimSpace (stripComment line0)).drop
          (findFirstOf (trimSpace (stripComment line0)) [32, 9] 0).toNat := by
        apply List.mem_of_mem_getLast?
        rw [getLast?_drop_of_lt _ _ hsep]
        exact hb0
      have hval : trimSpace ((trimSpace (stripComment line0)).drop
          (findFirstOf (trimSpace (stripComment line0)) [32, 9] 0).toNat) ≠ [] :=
        trimSpace_ne_nil_of_mem hmem hb0ws
      rw [if_neg hval]
      by_cases h2 : findFirstOf (trimSpace ((trimSpace (stripComment line0)).drop
          (findFirstOf (trimSpace (stripComment line0)) [32, 9] 0).toNat)) [32, 9] 0 ≠ -1
      · rw [if_pos h2]
        exact ⟨none, rfl, fun k v hkv => Option.noConfusion hkv⟩
      · rw [if_neg h2]
        exact finishKeyValue_ok _ _

/-- Emitting a parsed key never hits the `GetUnknownText` guard when the raw
key text is non-empty. -/
theorem emitKeyValue_ok (n : Nat) (key value : List Nat) (hk : key ≠ []) :
    ∃ ev, EmitKeyValueToHandler n (ParsedRobotsKey.Parse key) value = Except.ok ev := by
  unfold ParsedRobotsKey.Parse
  by_cases h1 : KeyIsUserAgent key
  · rw [if_pos h1]; exact ⟨Event.UserAgent n value, rfl⟩
  · rw [if_neg h1]
    by_cases h2 : KeyIsAllow key
    · rw [if_pos h2]; exact ⟨Event.Allow n value, rfl⟩
    · rw [if_neg h2]
      by_cases h3 : KeyIsDisallow key
      · rw [if_pos h3]; exact ⟨Event.Disallow n value, rfl⟩
      · rw [if_neg h3]
        by_cases h4 : KeyIsSitemap key
        · rw [if_pos h4]; exact ⟨Event.Sitemap n value, rfl⟩
        · rw [if_neg h4]
          refine ⟨Event.UnknownAction n key value, ?_⟩
          unfold EmitKeyValueToHandler GetUnknownText
          simp [hk, Except.map]

theorem parseAndEmitLine_ok (n : Nat) (line : List Nat) :
    ∃ evs, ParseAndEmitLine n line = Except.ok evs := by
  obtain ⟨r, hr, hknil⟩ := getKeyAndValueFrom_ok line
  unfold ParseAndEmitLine
  rw [hr]
  cases r with
  | none => exact ⟨[], rfl⟩
  | some kv =>
    obtain ⟨k, v⟩ := kv
    have hk := hknil k v rfl
    by_cases he : NeedEscapeValueForKey (ParsedRobotsKey.Parse k) = true
    · obtain ⟨ev, hev⟩ := emitKeyValue_ok n k (MaybeEscapePattern v) hk
      dsimp only
      rw [if_pos he, hev]
      exact ⟨[ev], rfl⟩
    · obtain ⟨ev, hev⟩ := emitKeyValue_ok n k v hk
      dsimp only
      rw [if_neg he, hev]
      exact ⟨[ev], rfl⟩

theorem emitLines_ok (ls : List (Nat × List Nat)) :
    ∃ evs, emitLines ls = Except.ok evs := by
  induction ls with
  | nil => exact ⟨[], rfl⟩
  | cons p rest ih =>
    obtain ⟨evs, hev⟩ := parseAndEmitLine_ok p.1 p.2
    obtain ⟨evss, hevss⟩ := ih
    refine ⟨evs ++ evss, ?_⟩
    unfold emitLines
    rw [hev, hevss]

/-- C10: the parser is total.  For every input byte sequence `Parse`
completes with a well-defined event stream and never reaches an error: the
`Syntax error` panic for a whitespace-separated line whose value trims to
nothing is unreachable (the line was already trimmed, so its tail keeps a
non-whitespace byte), and the `GetUnknownText` guard never fires because an
emitted unknown key is always non-empty. -/
theorem c10_parser_total (body : List Nat) :
    ∃ events, Parse body = Except.ok events := by
  obtain ⟨evs, hevs⟩ := emitLines_ok (parseLines body)
  refine ⟨Event.RobotsStart :: (evs ++ [Event.RobotsEnd]), ?_⟩
  unfold Parse
  rw [hevs]

end Grobotstxt
